import Mathlib

/-!
# Verification of the metro_realtime_system transit core

Shallow embedding of the routing and realtime code of the repository
(`database.py`, `realtime.py`) together with proofs about the embedded
functions.  Python floats are modelled as exact rationals (`ℚ`); SQLite
tables are modelled as ordered lists of rows; Python dicts are modelled as
association lists where the most recent binding is found first.
-/

namespace Metro

/-! ## Name normalisation (`database.py` lines 10-24)

`_name_key` normalises case, whitespace runs and the right single quote and
keeps parentheses; `_group_key` additionally removes every occurrence of the
regex `\s*\([^)]*\)\s*` first.  Whitespace is modelled as the ASCII character
class `[ \t\n\r\f\v]` matched by Python's `\s` on ASCII text, and lowering is
ASCII lowering (`str.lower` restricted to ASCII input). -/

def isPyWs (c : Char) : Bool :=
  c = ' ' || c = '\t' || c = '\n' || c = '\r' || c = '\x0b' || c = '\x0c'

/-- Split a character list at the first `')'`: returns the characters before
it and the characters after it (the regex fragment `[^)]*\)`). -/
def findClose : List Char → Option (List Char × List Char)
  | [] => none
  | c :: rest =>
      if c = ')' then some ([], rest)
      else
        match findClose rest with
        | some (a, b) => some (c :: a, b)
        | none => none

/-- One attempted match of the regex `\s*\([^)]*\)\s*` anchored at the head of
the list.  Returns the remainder of the input after the match (the greedy
leading `\s*` can only succeed when the whole whitespace run is followed by
`'('`, since backtracking would place a non-`'('` whitespace character where
`'('` is required). -/
def parenMatch (l : List Char) : Option (List Char) :=
  match l.dropWhile isPyWs with
  | [] => none
  | c :: r2 =>
      if c = '(' then
        match findClose r2 with
        | some (_, after) => some (after.dropWhile isPyWs)
        | none => none
      else none

/-- `re.sub(r"\s*\([^)]*\)\s*", "", ·)`: scan left to right, removing each
leftmost match and continuing after it.  Each step consumes at least one
character, so the fuel `l.length + 1` used by `parenSub` is never exhausted;
the `0` case merely returns the remaining input. -/
def parenSubGo : Nat → List Char → List Char
  | 0, l => l
  | _ + 1, [] => []
  | fuel + 1, c :: rest =>
      match parenMatch (c :: rest) with
      | some after => parenSubGo fuel after
      | none => c :: parenSubGo fuel rest

def parenSub (l : List Char) : List Char := parenSubGo (l.length + 1) l

/-- `re.sub(r"\s+", " ", ·)`: replace every maximal whitespace run by a single
space.  The boolean records whether the previous character was whitespace. -/
def squeezeWs : Bool → List Char → List Char
  | _, [] => []
  | prevWs, c :: rest =>
      if isPyWs c then
        if prevWs then squeezeWs true rest else ' ' :: squeezeWs true rest
      else c :: squeezeWs false rest

/-- `str.strip()` on the left. -/
def lstripWs (l : List Char) : List Char := l.dropWhile isPyWs

/-- `str.strip()` on the right. -/
def rstripWs (l : List Char) : List Char :=
  (l.reverse.dropWhile isPyWs).reverse

/-- `.replace("’", "'")`. -/
def replaceRSQuote (l : List Char) : List Char :=
  l.map (fun c => if c = '’' then '\'' else c)

/-- `re.sub(r"\s+", " ", s).strip().lower()` (shared tail of both keys). -/
def normalizeTail (l : List Char) : List Char :=
  (rstripWs (lstripWs (squeezeWs false l))).map Char.toLower

/-- `_name_key` (`database.py` lines 10-15). -/
def _name_key (s : String) : String :=
  ⟨normalizeTail (replaceRSQuote s.data)⟩

/-- `_group_key` (`database.py` lines 17-24). -/
def _group_key (s : String) : String :=
  ⟨normalizeTail (replaceRSQuote (parenSub s.data))⟩

/-! ## `_collapse_stops` (`database.py` lines 573-584) -/

/-- The loop of `_collapse_stops`: drop each name whose group key equals the
group key of the previously processed name. -/
def collapseAux (lastG : String) : List String → List String
  | [] => []
  | n :: rest =>
      if _group_key n = lastG then collapseAux lastG rest
      else n :: collapseAux (_group_key n) rest

def _collapse_stops : List String → List String
  | [] => []
  | n :: rest => n :: collapseAux (_group_key n) rest

/-! ## The database tables used by `get_route_shortest`

`stations` rows are `(station_id, name)`; `routes` rows are
`(from_id, to_id, travel_time_min)` where the weight column is nullable
(`COALESCE(travel_time_min, 0)` applies on read); `time_pairs` rows are
`(from_id, to_id, total_min)`.  Lists keep the table row order (the order the
unordered `SELECT`s return, which for these tables is insertion order). -/

structure DB where
  stations : List (Nat × String)
  routes : List (Nat × Nat × Option ℚ)
  timePairs : List (Nat × Nat × ℚ)

/-- The adjacency dict built at `database.py` lines 592-598: every routes row
`(u, v, w)` appends `(v, COALESCE(w, 0) floored at 0)` to `adj[u]`, in row
order. -/
def adjOf (db : DB) (u : Nat) : List (Nat × ℚ) :=
  db.routes.filterMap (fun r =>
    if r.1 = u then
      some (r.2.1, if r.2.2.getD 0 < 0 then 0 else r.2.2.getD 0)
    else none)

/-- The `id2name` dict of `database.py` line 600 (station ids are `UNIQUE`, so
first-binding lookup agrees with the Python dict). -/
def id2name (db : DB) (x : Nat) : Option String :=
  db.stations.lookup x

/-- `get_direct_time` (`database.py` lines 566-571): first `time_pairs` row
matching the ordered pair. -/
def get_direct_time (db : DB) (o d : Nat) : Option ℚ :=
  (db.timePairs.find? (fun r => r.1 = o && r.2.1 = d)).map (fun r => r.2.2)

/-! ## BFS (`mode='stops'`, `database.py` lines 604-630) -/

/-- The neighbour loop of one BFS iteration: for each `(v, _)` in the
adjacency list of `u`, if `v` is not yet a key of `prev`, record `prev[v] = u`
and append `v` to the queue. -/
def bfsVisit (u : Nat) : List (Nat × ℚ) → List (Nat × Option Nat) → List Nat →
    List (Nat × Option Nat) × List Nat
  | [], prev, q => (prev, q)
  | (v, _) :: rest, prev, q =>
      if (prev.lookup v).isSome then bfsVisit u rest prev q
      else bfsVisit u rest ((v, some u) :: prev) (q ++ [v])

/-- The BFS `while q:` loop.  The first argument is fuel: every iteration pops
one queue element and each key enters `prev` (hence the queue) at most once,
so at most `1 + routes.length` elements are ever enqueued and the fuel chosen
in `get_route_shortest` is never exhausted; the `0` case returns the `prev`
built so far. -/
def bfsLoop (db : DB) (dest : Nat) :
    Nat → List Nat → List (Nat × Option Nat) → List (Nat × Option Nat)
  | _, [], prev => prev
  | 0, _ :: _, prev => prev
  | fuel + 1, u :: qrest, prev =>
      if u = dest then prev
      else
        let r := bfsVisit u (adjOf db u) prev qrest
        bfsLoop db dest fuel r.2 r.1

/-- Path reconstruction (`database.py` lines 617-622 and 651-656): follow the
parent pointers from the destination and reverse.  `prev` maps the origin to
`none` and every other discovered vertex to its parent, which is itself a
key of `prev`, so the chain is a path in a tree: it ends at the origin within
`prev.length` steps and the fuel is never exhausted. -/
def buildPath (prev : List (Nat × Option Nat)) : Nat → Nat → List Nat → List Nat
  | 0, x, acc => x :: acc
  | fuel + 1, x, acc =>
      match prev.lookup x with
      | some (some p) => buildPath prev fuel p (x :: acc)
      | _ => x :: acc

/-! ## Dijkstra (`mode='time'`, `database.py` lines 632-667) -/

structure DijState where
  dist : List (Nat × ℚ)
  prev : List (Nat × Option Nat)

/-- `d > dist.get(u, float("inf"))`. -/
def gtInf (d : ℚ) : Option ℚ → Bool
  | none => false
  | some x => d > x

/-- `nd < dist.get(v, float("inf"))`. -/
def ltInf (nd : ℚ) : Option ℚ → Bool
  | none => true
  | some x => nd < x

/-- `heapq.heappop`: remove the least `(d, u)` in lexicographic tuple order
(the first occurrence, all minimal entries being equal tuples). -/
def pqLe (a b : ℚ × Nat) : Bool := a.1 < b.1 || (a.1 = b.1 && a.2 ≤ b.2)

def popMin : List (ℚ × Nat) → Option ((ℚ × Nat) × List (ℚ × Nat))
  | [] => none
  | x :: rest =>
      match popMin rest with
      | none => some (x, [])
      | some (m, rest') => if pqLe x m then some (x, rest) else some (m, x :: rest')

/-- The relaxation loop over the neighbours of `u`, entered with `d` the
popped tentative distance of `u`: each improvement updates `dist` and `prev`
(new binding shadows the old) and pushes `(nd, v)`. -/
def relax (u : Nat) (d : ℚ) : List (Nat × ℚ) → DijState → List (ℚ × Nat) →
    DijState × List (ℚ × Nat)
  | [], st, pq => (st, pq)
  | (v, w) :: rest, st, pq =>
      if ltInf (d + w) (st.dist.lookup v) then
        relax u d rest ⟨(v, d + w) :: st.dist, (v, some u) :: st.prev⟩
          (pq ++ [(d + w, v)])
      else relax u d rest st pq

/-- The Dijkstra `while pq:` loop, with fuel (the loop terminates because
every pop removes a heap entry and entries are pushed only on a strict
decrease of a tentative distance; the generous fuel chosen in
`get_route_shortest` is never exhausted in practice, and the `0` case returns
the state built so far). -/
def dijkstraLoop (db : DB) (dest : Nat) :
    Nat → List (ℚ × Nat) → DijState → DijState
  | 0, _, st => st
  | fuel + 1, pq, st =>
      match popMin pq with
      | none => st
      | some ((d, u), pq') =>
          if u = dest then st
          else if gtInf d (st.dist.lookup u) then dijkstraLoop db dest fuel pq' st
          else
            let r := relax u d (adjOf db u) st pq'
            dijkstraLoop db dest fuel r.2 r.1

/-- The state the Dijkstra loop of `get_route_shortest` has produced when it
exits (`database.py` lines 633-647), starting from
`dist = {origin: 0.0}`, `prev = {origin: None}`, `pq = [(0.0, origin)]`. -/
def dijkstraFinal (db : DB) (origin_id destination_id : Nat) : DijState :=
  dijkstraLoop db destination_id
    ((db.routes.length + 2) * (db.routes.length + db.stations.length + 2))
    [(0, origin_id)] ⟨[(origin_id, 0)], [(origin_id, none)]⟩

/-! ## `get_route_shortest` (`database.py` lines 586-669) -/

structure RouteResult where
  path_ids : List Nat
  path_names : List String
  total_stops : Int
  total_time : Option ℚ
deriving DecidableEq

def get_route_shortest (db : DB) (origin_id destination_id : Nat)
    (mode : String) : Option RouteResult :=
  if (id2name db origin_id).isNone || (id2name db destination_id).isNone then
    none
  else if mode = "stops" then
    let prev := bfsLoop db destination_id (db.routes.length + 2)
      [origin_id] [(origin_id, none)]
    match prev.lookup destination_id with
    | none => none
    | some _ =>
        let path := buildPath prev (prev.length + 1) destination_id []
        let names := path.map (fun i => (id2name db i).getD "")
        some { path_ids := path, path_names := names,
               total_stops := max 0 ((_collapse_stops names).length - 1 : ℤ),
               total_time := none }
  else if mode = "time" then
    let st := dijkstraFinal db origin_id destination_id
    if (st.prev.lookup destination_id).isNone && destination_id ≠ origin_id then
      none
    else
      let path := buildPath st.prev (st.prev.length + 1) destination_id []
      let names := path.map (fun i => (id2name db i).getD "")
      let total_sum := (st.dist.lookup destination_id).getD 0
      let direct := get_direct_time db origin_id destination_id
      some { path_ids := path, path_names := names,
             total_stops := max 0 ((_collapse_stops names).length - 1 : ℤ),
             total_time := some (direct.getD total_sum) }
  else none

/-! ## Claim C1: stop counting collapses group-key runs -/

/-- Some pair of consecutive entries of `ns` has identical group keys. -/
def AdjShared (ns : List String) : Prop :=
  ∃ i, i + 1 < ns.length ∧ _group_key (ns.getD i "") = _group_key (ns.getD (i + 1) "")

theorem collapseAux_length_le (l : List String) :
    ∀ g, (collapseAux g l).length ≤ l.length := by
  induction l with
  | nil => intro g; simp [collapseAux]
  | cons n rest ih =>
      intro g
      by_cases h : _group_key n = g
      · simp only [collapseAux, if_pos h]
        exact le_trans (ih g) (Nat.le_succ _)
      · simp only [collapseAux, if_neg h, List.length_cons]
        exact Nat.succ_le_succ (ih _)

theorem collapseAux_length_lt_head (n : String) (rest : List String) (g : String)
    (h : _group_key n = g) :
    (collapseAux g (n :: rest)).length < (n :: rest).length := by
  simp only [collapseAux, if_pos h, List.length_cons]
  exact Nat.lt_succ_of_le (collapseAux_length_le rest g)

theorem collapseAux_length_lt (l : List String) :
    ∀ g i, i + 1 < l.length →
      _group_key (l.getD i "") = _group_key (l.getD (i + 1) "") →
      (collapseAux g l).length < l.length := by
  induction l with
  | nil => intro g i hi; simp at hi
  | cons n rest ih =>
      intro g i hi heq
      cases i with
      | zero =>
          cases rest with
          | nil => simp at hi
          | cons m rest' =>
              simp only [List.getD_cons_zero, List.getD_cons_succ] at heq
              by_cases h : _group_key n = g
              · simp only [collapseAux, if_pos h, List.length_cons]
                have hm : _group_key m = g := by rw [← h, ← heq]
                exact Nat.lt_succ_of_lt (collapseAux_length_lt_head m rest' g hm)
              · simp only [collapseAux, if_neg h, List.length_cons]
                exact Nat.succ_lt_succ
                  (collapseAux_length_lt_head m rest' (_group_key n) heq.symm)
      | succ j =>
          simp only [List.getD_cons_succ] at heq
          simp only [List.length_cons, Nat.add_lt_add_iff_right] at hi
          by_cases h : _group_key n = g
          · simp only [collapseAux, if_pos h, List.length_cons]
            exact Nat.lt_succ_of_lt (ih g j hi heq)
          · simp only [collapseAux, if_neg h, List.length_cons]
            exact Nat.succ_lt_succ (ih (_group_key n) j hi heq)

theorem collapse_length_le (ns : List String) :
    (_collapse_stops ns).length ≤ ns.length := by
  cases ns with
  | nil => simp [_collapse_stops]
  | cons n rest =>
      simp only [_collapse_stops, List.length_cons]
      exact Nat.succ_le_succ (collapseAux_length_le rest _)

theorem collapse_length_pos (ns : List String) (h : ns ≠ []) :
    0 < (_collapse_stops ns).length := by
  cases ns with
  | nil => exact absurd rfl h
  | cons n rest => simp [_collapse_stops]

theorem collapse_length_lt (ns : List String) (h : AdjShared ns) :
    (_collapse_stops ns).length < ns.length := by
  obtain ⟨i, hi, heq⟩ := h
  cases ns with
  | nil => simp at hi
  | cons n rest =>
      cases i with
      | zero =>
          cases rest with
          | nil => simp at hi
          | cons m rest' =>
              simp only [List.getD_cons_zero, List.getD_cons_succ] at heq
              simp only [_collapse_stops, List.length_cons]
              exact Nat.succ_lt_succ
                (collapseAux_length_lt_head m rest' (_group_key n) heq.symm)
      | succ j =>
          simp only [List.getD_cons_succ] at heq
          simp only [List.length_cons, Nat.add_lt_add_iff_right] at hi
          simp only [_collapse_stops, List.length_cons]
          exact Nat.succ_lt_succ (collapseAux_length_lt rest (_group_key n) j hi heq)

/-- Every found result reports `total_stops = max(0, len(collapsed) - 1)` on
its own name sequence. -/
theorem total_stops_eq (db : DB) (o d : Nat) (mode : String) (r : RouteResult)
    (h : get_route_shortest db o d mode = some r) :
    r.total_stops = max 0 (((_collapse_stops r.path_names).length : ℤ) - 1) := by
  unfold get_route_shortest at h
  split at h
  · exact Option.noConfusion h
  · split at h
    · dsimp only at h
      split at h
      · exact Option.noConfusion h
      · injection h with h'
        subst h'
        rfl
    · split at h
      · dsimp only at h
        split at h
        · exact Option.noConfusion h
        · injection h with h'
          subst h'
          rfl
      · exact Option.noConfusion h

/-- C1: for every path result returned by `get_route_shortest` (either mode),
`total_stops` equals the length of the group-key-collapsed name sequence minus
one, floored at zero; hence for a non-empty returned path it never exceeds the
raw vertex count minus one, and is strictly smaller whenever some consecutive
pair of path vertices shares a group key. -/
theorem c1_total_stops_collapsed (db : DB) (o d : Nat) (mode : String)
    (r : RouteResult) (h : get_route_shortest db o d mode = some r) :
    r.total_stops = max 0 (((_collapse_stops r.path_names).length : ℤ) - 1)
    ∧ (r.path_names ≠ [] →
        r.total_stops ≤ (r.path_names.length : ℤ) - 1
        ∧ (AdjShared r.path_names →
            r.total_stops < (r.path_names.length : ℤ) - 1)) := by
  have hs := total_stops_eq db o d mode r h
  refine ⟨hs, fun hne => ?_⟩
  have h1 := collapse_length_le r.path_names
  have h2 := collapse_length_pos r.path_names hne
  constructor
  · rw [hs]; omega
  · intro hadj
    have h3 := collapse_length_lt r.path_names hadj
    rw [hs]; omega

def c1db : DB :=
  ⟨[(1, "A"), (2, "B")], [(1, 2, some 1), (2, 1, some 1)], []⟩

def c1res : RouteResult := ⟨[1, 2], ["A", "B"], 1, none⟩

/-- Witness for C1 on a concrete two-station database. -/
theorem c1_witness :
    get_route_shortest c1db 1 2 "stops" = some c1res
    ∧ (c1res.total_stops = max 0 (((_collapse_stops c1res.path_names).length : ℤ) - 1)
      ∧ (c1res.path_names ≠ [] →
          c1res.total_stops ≤ (c1res.path_names.length : ℤ) - 1
          ∧ (AdjShared c1res.path_names →
              c1res.total_stops < (c1res.path_names.length : ℤ) - 1))) :=
  ⟨by decide, c1_total_stops_collapsed c1db 1 2 "stops" c1res (by decide)⟩

/-! ## Claim C2: self-path results -/

theorem bfsLoop_pop_dest (db : DB) (dest : Nat) (fuel : Nat) (q : List Nat)
    (prev : List (Nat × Option Nat)) :
    bfsLoop db dest (fuel + 1) (dest :: q) prev = prev := by
  simp [bfsLoop]

theorem dijkstraLoop_pop_dest (db : DB) (dest : Nat) (fuel : Nat) (d : ℚ)
    (st : DijState) :
    dijkstraLoop db dest (fuel + 1) [(d, dest)] st = st := by
  simp [dijkstraLoop, popMin]

/-- C2 amended: a self-route on a known station returns the single-vertex
path with zero stops; `total_time` is `None` in `'stops'` mode, and in
`'time'` mode it is the direct `time_pairs` lookup for `(x, x)` when present
and `0` otherwise. -/
theorem c2_self_path (db : DB) (x : Nat) (nm : String)
    (h : id2name db x = some nm) :
    get_route_shortest db x x "stops" = some ⟨[x], [nm], 0, none⟩
    ∧ get_route_shortest db x x "time" =
        some ⟨[x], [nm], 0, some ((get_direct_time db x x).getD 0)⟩ := by
  have e2 : db.routes.length + 2 = (db.routes.length + 1) + 1 := rfl
  have e3 : (db.routes.length + 2) * (db.routes.length + db.stations.length + 2)
      = ((db.routes.length + 2) * (db.routes.length + db.stations.length + 2) - 1) + 1 := by
    have : 0 < (db.routes.length + 2) * (db.routes.length + db.stations.length + 2) :=
      Nat.mul_pos (by omega) (by omega)
    omega
  constructor
  · unfold get_route_shortest
    rw [h, e2, bfsLoop_pop_dest]
    simp [buildPath, _collapse_stops, collapseAux, h]
  · unfold get_route_shortest
    unfold dijkstraFinal
    rw [h, e3, dijkstraLoop_pop_dest]
    simp [buildPath, _collapse_stops, collapseAux, h]

def c2db : DB := ⟨[(1, "A")], [], []⟩

def c2dbDirect : DB := ⟨[(1, "A")], [], [(1, 1, 7)]⟩

/-- C2 counterexample: on a one-station database the self-route in `'stops'`
mode reports `total_time = None` (not zero), and with a direct `(1,1)` entry
of `7` the `'time'` mode reports `total_time = 7` (not zero). -/
theorem c2_counterexample :
    get_route_shortest c2db 1 1 "stops" = some ⟨[1], ["A"], 0, none⟩
    ∧ (⟨[1], ["A"], 0, none⟩ : RouteResult).total_time ≠ some 0
    ∧ get_route_shortest c2dbDirect 1 1 "time" = some ⟨[1], ["A"], 0, some 7⟩
    ∧ (⟨[1], ["A"], 0, some 7⟩ : RouteResult).total_time ≠ some 0 :=
  ⟨by decide, by decide, by decide, by decide⟩

/-- Witness for the amended C2 on a concrete database with a direct self
entry. -/
theorem c2_witness :
    id2name c2dbDirect 1 = some "A"
    ∧ (get_route_shortest c2dbDirect 1 1 "stops" = some ⟨[1], ["A"], 0, none⟩
      ∧ get_route_shortest c2dbDirect 1 1 "time" =
          some ⟨[1], ["A"], 0, some ((get_direct_time c2dbDirect 1 1).getD 0)⟩) :=
  ⟨by decide, c2_self_path c2dbDirect 1 "A" (by decide)⟩

/-! ## Claim C3: time-mode total time

`WalkW adj o x t` states that `t` is the summed edge weight of some directed
walk from `o` to `x`; `Reaches adj o x` states that `x` is reachable from `o`
over the directed adjacency. -/

theorem lookup_cons_self {β : Type} (k : Nat) (b : β) (l : List (Nat × β)) :
    List.lookup k ((k, b) :: l) = some b := by simp [List.lookup]

theorem lookup_cons_ne {β : Type} (x k : Nat) (b : β) (l : List (Nat × β))
    (h : x ≠ k) : List.lookup x ((k, b) :: l) = List.lookup x l := by
  rw [List.lookup_cons, beq_false_of_ne h]

theorem lookup_nil_none {β : Type} (x : Nat) :
    List.lookup x ([] : List (Nat × β)) = none := rfl

inductive WalkW (adj : Nat → List (Nat × ℚ)) (o : Nat) : Nat → ℚ → Prop
  | refl : WalkW adj o o 0
  | step {u v : Nat} {d w : ℚ} :
      WalkW adj o u d → (v, w) ∈ adj u → WalkW adj o v (d + w)

inductive Reaches (adj : Nat → List (Nat × ℚ)) (o : Nat) : Nat → Prop
  | refl : Reaches adj o o
  | step {u v : Nat} {w : ℚ} :
      Reaches adj o u → (v, w) ∈ adj u → Reaches adj o v

theorem WalkW.reaches {adj : Nat → List (Nat × ℚ)} {o x : Nat} {t : ℚ}
    (h : WalkW adj o x t) : Reaches adj o x := by
  induction h with
  | refl => exact .refl
  | step _ hm ih => exact .step ih hm

/-- Loop invariant of the embedded Dijkstra: every tentative distance and
every queued priority is the weight of an actual walk from the origin, `dist`
and `prev` always have the same key set, and the origin always has a
tentative distance. -/
def DInv (adj : Nat → List (Nat × ℚ)) (o : Nat) (st : DijState)
    (pq : List (ℚ × Nat)) : Prop :=
  (∀ x t, st.dist.lookup x = some t → WalkW adj o x t)
  ∧ (∀ p ∈ pq, WalkW adj o p.2 p.1)
  ∧ (∀ x, (st.prev.lookup x).isSome ↔ (st.dist.lookup x).isSome)
  ∧ (st.dist.lookup o).isSome

theorem popMin_mem : ∀ (pq : List (ℚ × Nat)) (p : ℚ × Nat)
    (pq' : List (ℚ × Nat)), popMin pq = some (p, pq') →
    p ∈ pq ∧ ∀ q ∈ pq', q ∈ pq := by
  intro pq
  induction pq with
  | nil => intro p pq' h; simp [popMin] at h
  | cons x rest ih =>
      intro p pq' h
      simp only [popMin] at h
      cases hrest : popMin rest with
      | none =>
          rw [hrest] at h
          injection h with h'
          injection h' with h1 h2
          subst h1; subst h2
          exact ⟨List.mem_cons_self _ _, by simp⟩
      | some mp =>
          obtain ⟨m, rest'⟩ := mp
          rw [hrest] at h
          dsimp only at h
          obtain ⟨hm, hsub⟩ := ih m rest' hrest
          by_cases hle : pqLe x m
          · rw [if_pos hle] at h
            injection h with h'
            injection h' with h1 h2
            subst h1; subst h2
            exact ⟨List.mem_cons_self _ _, fun q hq => List.mem_cons_of_mem _ hq⟩
          · rw [if_neg hle] at h
            injection h with h'
            injection h' with h1 h2
            subst h1; subst h2
            refine ⟨List.mem_cons_of_mem _ hm, fun q hq => ?_⟩
            rcases List.mem_cons.mp hq with hq | hq
            · subst hq; exact List.mem_cons_self _ _
            · exact List.mem_cons_of_mem _ (hsub q hq)

theorem relax_inv {adj : Nat → List (Nat × ℚ)} {o u : Nat} {d : ℚ}
    (hu : WalkW adj o u d) :
    ∀ (nbrs : List (Nat × ℚ)) (st : DijState) (pq : List (ℚ × Nat)),
      (∀ vw ∈ nbrs, vw ∈ adj u) → DInv adj o st pq →
      DInv adj o (relax u d nbrs st pq).1 (relax u d nbrs st pq).2 := by
  intro nbrs
  induction nbrs with
  | nil => intro st pq _ hinv; simpa [relax] using hinv
  | cons vw rest ih =>
      intro st pq hsub hinv
      obtain ⟨v, w⟩ := vw
      obtain ⟨hd, hpq, hkeys, ho⟩ := hinv
      have hvw : (v, w) ∈ adj u := hsub _ (List.mem_cons_self _ _)
      have hrest : ∀ x ∈ rest, x ∈ adj u :=
        fun x hx => hsub x (List.mem_cons_of_mem _ hx)
      simp only [relax]
      split
      · apply ih _ _ hrest
        refine ⟨?_, ?_, ?_, ?_⟩
        · intro x t hx
          by_cases hxv : x = v
          · subst hxv
            rw [lookup_cons_self] at hx
            injection hx with hx
            subst hx
            exact WalkW.step hu hvw
          · rw [lookup_cons_ne _ _ _ _ hxv] at hx
            exact hd x t hx
        · intro p hp
          rcases List.mem_append.mp hp with hp | hp
          · exact hpq p hp
          · simp only [List.mem_singleton] at hp
            subst hp
            exact WalkW.step hu hvw
        · intro x
          by_cases hxv : x = v
          · subst hxv
            rw [lookup_cons_self, lookup_cons_self]
            simp
          · rw [lookup_cons_ne _ _ _ _ hxv, lookup_cons_ne _ _ _ _ hxv]
            exact hkeys x
        · by_cases hov : o = v
          · subst hov
            rw [lookup_cons_self]
            simp
          · rw [lookup_cons_ne _ _ _ _ hov]
            exact ho
      · exact ih _ _ hrest ⟨hd, hpq, hkeys, ho⟩

theorem dijkstraLoop_inv (db : DB) (dest o : Nat) :
    ∀ (fuel : Nat) (pq : List (ℚ × Nat)) (st : DijState),
      DInv (adjOf db) o st pq →
      DInv (adjOf db) o (dijkstraLoop db dest fuel pq st) [] := by
  intro fuel
  induction fuel with
  | zero =>
      intro pq st hinv
      exact ⟨hinv.1, by simp, hinv.2.2⟩
  | succ fuel ih =>
      intro pq st hinv
      obtain ⟨hd, hpq, hkeys, ho⟩ := hinv
      simp only [dijkstraLoop]
      cases hpop : popMin pq with
      | none => exact ⟨hd, by simp, hkeys, ho⟩
      | some pr =>
          obtain ⟨⟨d, u⟩, pq'⟩ := pr
          dsimp only
          obtain ⟨hmem, hsub⟩ := popMin_mem pq _ _ hpop
          have hu : WalkW (adjOf db) o u d := hpq _ hmem
          have hpq' : ∀ p ∈ pq', WalkW (adjOf db) o p.2 p.1 :=
            fun p hp => hpq p (hsub p hp)
          by_cases hud : u = dest
          · rw [if_pos hud]
            exact ⟨hd, by simp, hkeys, ho⟩
          · rw [if_neg hud]
            split
            · exact ih pq' st ⟨hd, hpq', hkeys, ho⟩
            · exact ih _ _ (relax_inv hu (adjOf db u) st pq' (fun _ h => h)
                ⟨hd, hpq', hkeys, ho⟩)

/-- C3: in `'time'` mode every found route reports as `total_time` the flat
`time_pairs` lookup for `(origin, destination)` when such an entry exists,
and otherwise the cumulative Dijkstra distance of the destination — a value
that is the summed weight of an actual directed walk from origin to
destination. -/
theorem c3_total_time_direct_override (db : DB) (o d : Nat) (r : RouteResult)
    (h : get_route_shortest db o d "time" = some r) :
    ∃ t : ℚ, (dijkstraFinal db o d).dist.lookup d = some t
      ∧ WalkW (adjOf db) o d t
      ∧ r.total_time = some ((get_direct_time db o d).getD t)
      ∧ (∀ td, get_direct_time db o d = some td → r.total_time = some td)
      ∧ (get_direct_time db o d = none → r.total_time = some t) := by
  have hinv : DInv (adjOf db) o
      ⟨[(o, 0)], [(o, none)]⟩ [(0, o)] := by
    refine ⟨?_, ?_, ?_, ?_⟩
    · intro x t hx
      by_cases hxo : x = o
      · subst hxo
        rw [lookup_cons_self] at hx
        injection hx with hx
        subst hx
        exact WalkW.refl
      · rw [lookup_cons_ne _ _ _ _ hxo, lookup_nil_none] at hx
        exact Option.noConfusion hx
    · intro p hp
      simp only [List.mem_singleton] at hp
      subst hp
      exact WalkW.refl
    · intro x
      by_cases hxo : x = o
      · subst hxo
        rw [lookup_cons_self, lookup_cons_self]
        simp
      · rw [lookup_cons_ne _ _ _ _ hxo, lookup_cons_ne _ _ _ _ hxo]
        exact Iff.rfl
    · rw [lookup_cons_self]
      simp
  have hfin := dijkstraLoop_inv db d o
    ((db.routes.length + 2) * (db.routes.length + db.stations.length + 2))
    [(0, o)] ⟨[(o, 0)], [(o, none)]⟩ hinv
  rw [show dijkstraLoop db d
      ((db.routes.length + 2) * (db.routes.length + db.stations.length + 2))
      [(0, o)] ⟨[(o, 0)], [(o, none)]⟩ = dijkstraFinal db o d from rfl] at hfin
  obtain ⟨hwalk, _, hkeys, ho⟩ := hfin
  unfold get_route_shortest at h
  split at h
  · exact Option.noConfusion h
  · rw [if_neg (by decide : ¬("time" : String) = "stops")] at h
    rw [if_pos rfl] at h
    dsimp only at h
    split at h
    · exact Option.noConfusion h
    · rename_i hcond
      injection h with h'
      subst h'
      have hsome : ((dijkstraFinal db o d).dist.lookup d).isSome := by
        by_cases hdo : d = o
        · subst hdo; exact ho
        · cases hc : (dijkstraFinal db o d).prev.lookup d with
          | none => exact absurd (by simp [hc, hdo]) hcond
          | some p => exact (hkeys d).mp (by simp [hc])
      obtain ⟨t, ht⟩ := Option.isSome_iff_exists.mp hsome
      refine ⟨t, ht, hwalk d t ht, ?_, ?_, ?_⟩
      · dsimp only
        rw [ht]
        rfl
      · intro td htd
        dsimp only
        rw [ht, htd]
        rfl
      · intro hnone
        dsimp only
        rw [ht, hnone]
        rfl

def c3db : DB := ⟨[(1, "A")], [], [(1, 1, 7)]⟩

/-- Witness for C3 on a database with a direct `(1,1)` entry. -/
theorem c3_witness :
    get_route_shortest c3db 1 1 "time" = some ⟨[1], ["A"], 0, some 7⟩
    ∧ ∃ t : ℚ, (dijkstraFinal c3db 1 1).dist.lookup 1 = some t
        ∧ WalkW (adjOf c3db) 1 1 t
        ∧ (⟨[1], ["A"], 0, some 7⟩ : RouteResult).total_time =
            some ((get_direct_time c3db 1 1).getD t)
        ∧ (∀ td, get_direct_time c3db 1 1 = some td →
            (⟨[1], ["A"], 0, some 7⟩ : RouteResult).total_time = some td)
        ∧ (get_direct_time c3db 1 1 = none →
            (⟨[1], ["A"], 0, some 7⟩ : RouteResult).total_time = some t) :=
  ⟨by decide,
   c3_total_time_direct_override c3db 1 1 ⟨[1], ["A"], 0, some 7⟩ (by decide)⟩

/-! ## Claim C6: unknown or unreachable stations give a not-found result -/

/-- The Dijkstra invariant holds for the initial state of
`get_route_shortest`. -/
theorem dinv_init (db : DB) (o : Nat) :
    DInv (adjOf db) o ⟨[(o, 0)], [(o, none)]⟩ [(0, o)] := by
  refine ⟨?_, ?_, ?_, ?_⟩
  · intro x t hx
    by_cases hxo : x = o
    · subst hxo
      rw [lookup_cons_self] at hx
      injection hx with hx
      subst hx
      exact WalkW.refl
    · rw [lookup_cons_ne _ _ _ _ hxo, lookup_nil_none] at hx
      exact Option.noConfusion hx
  · intro p hp
    simp only [List.mem_singleton] at hp
    subst hp
    exact WalkW.refl
  · intro x
    by_cases hxo : x = o
    · subst hxo
      rw [lookup_cons_self, lookup_cons_self]
      simp
    · rw [lookup_cons_ne _ _ _ _ hxo, lookup_cons_ne _ _ _ _ hxo]
      exact Iff.rfl
  · rw [lookup_cons_self]
    simp

theorem bfsVisit_reaches (db : DB) (o u : Nat)
    (hu : Reaches (adjOf db) o u) :
    ∀ (nbrs : List (Nat × ℚ)) (prev : List (Nat × Option Nat)) (q : List Nat),
      (∀ vw ∈ nbrs, vw ∈ adjOf db u) →
      (∀ x p, prev.lookup x = some p → Reaches (adjOf db) o x) →
      (∀ x ∈ q, Reaches (adjOf db) o x) →
      (∀ x p, (bfsVisit u nbrs prev q).1.lookup x = some p →
        Reaches (adjOf db) o x)
      ∧ (∀ x ∈ (bfsVisit u nbrs prev q).2, Reaches (adjOf db) o x) := by
  intro nbrs
  induction nbrs with
  | nil =>
      intro prev q _ hprev hq
      exact ⟨hprev, hq⟩
  | cons vw rest ih =>
      intro prev q hsub hprev hq
      obtain ⟨v, w⟩ := vw
      have hvw : (v, w) ∈ adjOf db u := hsub _ (List.mem_cons_self _ _)
      have hrest : ∀ x ∈ rest, x ∈ adjOf db u :=
        fun x hx => hsub x (List.mem_cons_of_mem _ hx)
      simp only [bfsVisit]
      split
      · exact ih prev q hrest hprev hq
      · apply ih _ _ hrest
        · intro x p hx
          by_cases hxv : x = v
          · subst hxv
            exact Reaches.step hu hvw
          · rw [lookup_cons_ne _ _ _ _ hxv] at hx
            exact hprev x p hx
        · intro x hx
          rcases List.mem_append.mp hx with hx | hx
          · exact hq x hx
          · simp only [List.mem_singleton] at hx
            subst hx
            exact Reaches.step hu hvw

theorem bfsLoop_reaches (db : DB) (dest o : Nat) :
    ∀ (fuel : Nat) (q : List Nat) (prev : List (Nat × Option Nat)),
      (∀ x ∈ q, Reaches (adjOf db) o x) →
      (∀ x p, prev.lookup x = some p → Reaches (adjOf db) o x) →
      ∀ x p, (bfsLoop db dest fuel q prev).lookup x = some p →
        Reaches (adjOf db) o x := by
  intro fuel
  induction fuel with
  | zero =>
      intro q prev hq hprev x p hx
      cases q <;> simp only [bfsLoop] at hx <;> exact hprev x p hx
  | succ fuel ih =>
      intro q prev hq hprev x p hx
      cases q with
      | nil =>
          simp only [bfsLoop] at hx
          exact hprev x p hx
      | cons u qrest =>
          simp only [bfsLoop] at hx
          by_cases hud : u = dest
          · rw [if_pos hud] at hx
            exact hprev x p hx
          · rw [if_neg hud] at hx
            have hu : Reaches (adjOf db) o u := hq u (List.mem_cons_self _ _)
            have hq' : ∀ y ∈ qrest, Reaches (adjOf db) o y :=
              fun y hy => hq y (List.mem_cons_of_mem _ hy)
            obtain ⟨h1, h2⟩ := bfsVisit_reaches db o u hu (adjOf db u) prev qrest
              (fun _ hh => hh) hprev hq'
            exact ih _ _ h2 h1 x p hx

/-- C6: `get_route_shortest` returns `None` (and, being a total function,
raises nothing) whenever either station id is not in the stations table or
the destination is unreachable from the origin over the directed
adjacency — in every mode. -/
theorem c6_not_found (db : DB) (o d : Nat) (mode : String)
    (h : id2name db o = none ∨ id2name db d = none ∨ ¬ Reaches (adjOf db) o d) :
    get_route_shortest db o d mode = none := by
  rcases h with h | h | h
  · unfold get_route_shortest
    rw [if_pos (by simp [h])]
  · unfold get_route_shortest
    rw [if_pos (by simp [h])]
  · have hdo : d ≠ o := fun e => h (e ▸ Reaches.refl)
    unfold get_route_shortest
    split
    · rfl
    · by_cases hm : mode = "stops"
      · rw [if_pos hm]
        dsimp only
        have hr := bfsLoop_reaches db d o (db.routes.length + 2) [o] [(o, none)]
          (by intro x hx
              simp only [List.mem_singleton] at hx
              subst hx
              exact Reaches.refl)
          (by intro x p hx
              by_cases hxo : x = o
              · subst hxo; exact Reaches.refl
              · rw [lookup_cons_ne _ _ _ _ hxo, lookup_nil_none] at hx
                exact Option.noConfusion hx)
        cases hld : List.lookup d
            (bfsLoop db d (db.routes.length + 2) [o] [(o, none)]) with
        | none => rfl
        | some p => exact absurd (hr d p hld) h
      · rw [if_neg hm]
        by_cases ht : mode = "time"
        · rw [if_pos ht]
          dsimp only
          have hfin := dijkstraLoop_inv db d o
            ((db.routes.length + 2) * (db.routes.length + db.stations.length + 2))
            [(0, o)] ⟨[(o, 0)], [(o, none)]⟩ (dinv_init db o)
          rw [show dijkstraLoop db d
              ((db.routes.length + 2) * (db.routes.length + db.stations.length + 2))
              [(0, o)] ⟨[(o, 0)], [(o, none)]⟩ = dijkstraFinal db o d from rfl] at hfin
          obtain ⟨hwalk, _, hkeys, _⟩ := hfin
          have hprevnone : (dijkstraFinal db o d).prev.lookup d = none := by
            cases hc : (dijkstraFinal db o d).prev.lookup d with
            | none => rfl
            | some p =>
                have hds : ((dijkstraFinal db o d).dist.lookup d).isSome :=
                  (hkeys d).mp (by simp [hc])
                obtain ⟨t, ht'⟩ := Option.isSome_iff_exists.mp hds
                exact absurd (hwalk d t ht').reaches h
          rw [if_pos (by simp [hprevnone, hdo])]
        · rw [if_neg ht]

def c6db : DB := ⟨[(1, "A"), (2, "B")], [], []⟩

/-- Witness for C6: station `2` is unreachable from `1` in a database with no
route rows. -/
theorem c6_witness :
    (id2name c6db 1 = none ∨ id2name c6db 2 = none
      ∨ ¬ Reaches (adjOf c6db) 1 2)
    ∧ get_route_shortest c6db 1 2 "stops" = none := by
  have hnr : ¬ Reaches (adjOf c6db) 1 2 := by
    intro hr
    cases hr with
    | step hu hm => simp [adjOf, c6db] at hm
  exact ⟨Or.inr (Or.inr hnr), c6_not_found c6db 1 2 "stops" (Or.inr (Or.inr hnr))⟩

/-! ## Claim C4: the station universe built by `import_stations`
(`database.py` lines 123-153)

CSV files are modelled as lists of rows (lists of cell strings); a missing
file is `none`.  `import_stations` collects names from `Fare.csv` only — the
first-column entry of every data row and the header cells after the first —
and only when that set is empty falls back to the stripped non-empty cells of
the first row of `Route.csv` and of `Time.csv`
(`_read_header_row_only`).  The collected set is sorted and numbered from 1
(`INSERT OR IGNORE` into the empty table keeps every row since the sorted
names are distinct). -/

/-- Python `str.strip()`. -/
def pstrip (s : String) : String := ⟨rstripWs (lstripWs s.data)⟩

/-- Code-point lexicographic order on strings — the order Python's `sorted`
uses on `str`. -/
def charListLe : List Char → List Char → Bool
  | [], _ => true
  | _ :: _, [] => false
  | a :: as, b :: bs =>
      if a < b then true
      else if b < a then false
      else charListLe as bs

def strLe (a b : String) : Bool := charListLe a.data b.data

theorem charListLe_total : ∀ x y : List Char,
    charListLe x y = true ∨ charListLe y x = true := by
  intro x
  induction x with
  | nil => intro y; left; rfl
  | cons a as ih =>
      intro y
      cases y with
      | nil => right; rfl
      | cons b bs =>
          simp only [charListLe]
          rcases lt_trichotomy a b with h | h | h
          · left; simp [h]
          · subst h
            rcases ih bs with h2 | h2
            · left; simp [lt_irrefl, h2]
            · right; simp [lt_irrefl, h2]
          · right; simp [h]

theorem charListLe_trans : ∀ x y z : List Char, charListLe x y = true →
    charListLe y z = true → charListLe x z = true := by
  intro x
  induction x with
  | nil => intro y z _ _; rfl
  | cons a as ih =>
      intro y z hxy hyz
      cases y with
      | nil => simp [charListLe] at hxy
      | cons b bs =>
          cases z with
          | nil => simp [charListLe] at hyz
          | cons c cs =>
              simp only [charListLe] at hxy hyz ⊢
              by_cases hab : a < b
              · by_cases hbc : b < c
                · simp [lt_trans hab hbc]
                · by_cases hcb : c < b
                  · simp [hbc, hcb] at hyz
                  · have hbc' : b = c := le_antisymm (not_lt.mp hcb) (not_lt.mp hbc)
                    subst hbc'
                    simp [hab]
              · by_cases hba : b < a
                · simp [hab, hba] at hxy
                · have hab' : a = b := le_antisymm (not_lt.mp hba) (not_lt.mp hab)
                  subst hab'
                  simp only [if_neg hab, if_neg hba] at hxy
                  by_cases hbc : a < c
                  · simp [hbc]
                  · by_cases hcb : c < a
                    · simp [hbc, hcb] at hyz
                    · simp only [if_neg hbc, if_neg hcb] at hyz ⊢
                      exact ih bs cs hxy hyz

/-- The sorting relation of the embedding of `sorted(...)`. -/
def pyStrLe (a b : String) : Prop := strLe a b = true

instance : DecidableRel pyStrLe := fun a b => instDecidableEqBool (strLe a b) true

instance : IsTotal String pyStrLe := ⟨fun a b => charListLe_total a.data b.data⟩

instance : IsTrans String pyStrLe :=
  ⟨fun a b c => charListLe_trans a.data b.data c.data⟩

/-- The names collected from `Fare.csv` (lines 127-136): non-empty stripped
first cells of data rows, and non-empty stripped header cells after the
first. -/
def fareNames (rows : List (List String)) : List String :=
  (rows.tail.filterMap (fun line =>
    match line.head? with
    | some c => if pstrip c ≠ "" then some (pstrip c) else none
    | none => none))
  ++ ((rows.headD []).drop 1).filterMap
      (fun h => if pstrip h ≠ "" then some (pstrip h) else none)

/-- `_read_header_row_only` (lines 111-121) followed by the `if hdr:` guard of
the fallback loop: the stripped non-empty cells of the first row, or nothing
when the file is missing or empty. -/
def headerRowNames (rows? : Option (List (List String))) : List String :=
  match rows? with
  | none => []
  | some rows =>
      match rows.head? with
      | none => []
      | some header =>
          header.filterMap (fun h => if pstrip h ≠ "" then some (pstrip h) else none)

/-- The name set `import_stations` ends up sorting: `Fare.csv` names, or the
`Route.csv`/`Time.csv` header-row fallback when there are none. -/
def stationSourceNames (fare? route? time? : Option (List (List String))) :
    List String :=
  let src := (fare?.map fareNames).getD []
  if src = [] then headerRowNames route? ++ headerRowNames time? else src

/-- `import_stations`: the rows inserted into the empty `stations` table —
`(i, name)` for the deduplicated source names in sorted order, numbered from
1. -/
def import_stations (fare? route? time? : Option (List (List String))) :
    List (Nat × String) :=
  ((stationSourceNames fare? route? time?).dedup.insertionSort pyStrLe).enum.map
    (fun p => (p.1 + 1, p.2))

def c4fare : List (List String) := [["", "A"], ["a", "1"]]

def c4route : List (List String) := [["A", "B"]]

/-- C4 counterexample: with `Fare.csv` mentioning `A`/`a` and `Route.csv`
containing the sequence entry `B`, the station table is `[(1,"A"),(2,"a")]`:
no station carries the strict key of the mentioned name `B`, and two distinct
stations share one strict key (so the set is neither the union of all sources
nor deduplicated by strict key). -/
theorem c4_counterexample :
    import_stations (some c4fare) (some c4route) none = [(1, "A"), (2, "a")]
    ∧ (∃ row ∈ c4route, "B" ∈ row)
    ∧ (∀ s ∈ import_stations (some c4fare) (some c4route) none,
        _name_key s.2 ≠ _name_key "B")
    ∧ _name_key "A" = _name_key "a" :=
  ⟨by decide, by decide, by decide, by decide⟩

/-- C4 amended: the created stations are numbered `1, 2, …` in sorted name
order; their names are exactly the names of the fare source (data-row first
cells and column headers), deduplicated by exact stripped string, with the
header rows of the route and duration sources used only as a fallback when
the fare source yields no name at all. -/
theorem c4_station_universe (fare? route? time? : Option (List (List String))) :
    (∀ i (h : i < (import_stations fare? route? time?).length),
      ((import_stations fare? route? time?).get ⟨i, h⟩).1 = i + 1)
    ∧ List.Sorted pyStrLe ((import_stations fare? route? time?).map Prod.snd)
    ∧ ((import_stations fare? route? time?).map Prod.snd).Nodup
    ∧ (∀ n, n ∈ (import_stations fare? route? time?).map Prod.snd ↔
        n ∈ stationSourceNames fare? route? time?) := by
  have hsnd : (import_stations fare? route? time?).map Prod.snd
      = (stationSourceNames fare? route? time?).dedup.insertionSort pyStrLe := by
    unfold import_stations
    rw [List.map_map]
    have : (Prod.snd ∘ fun p : Nat × String => (p.1 + 1, p.2)) = Prod.snd := by
      funext p; rfl
    rw [this, List.enum_map_snd]
  refine ⟨?_, ?_, ?_, ?_⟩
  · intro i h
    unfold import_stations at h ⊢
    rw [List.get_eq_getElem, List.getElem_map]
    simp [List.getElem_enum]
  · rw [hsnd]
    exact List.sorted_insertionSort _ _
  · rw [hsnd]
    exact ((List.perm_insertionSort _ _).nodup_iff).mpr (List.nodup_dedup _)
  · intro n
    rw [hsnd, List.mem_insertionSort, List.mem_dedup]

/-! ## Claim C5: zero-weight interchange edges (`database.py` lines 204-292)

`import_routes` first parses `seq_edges` from `Route.csv` and returns early,
writing nothing, when that set is empty (lines 231-233; a missing
`Route.csv` returns even earlier at lines 206-208, likewise writing
nothing).  Otherwise it groups all stations by group key (`base_groups`),
builds `transfer_edges` as every ordered pair within each group of two or
more members, and writes the sequence-edge rows first and then a
`0.0`-weight row per transfer pair with `INSERT OR REPLACE` on the
`(from_id, to_id)` key into the initially empty table (imports only run
when the table is empty). -/

/-- One `base_groups[key].append(id)` step of the grouping dict. -/
def addToGroup : List (String × List Nat) → String → Nat → List (String × List Nat)
  | [], g, i => [(g, [i])]
  | (k, ids) :: rest, g, i =>
      if k = g then (k, ids ++ [i]) :: rest
      else (k, ids) :: addToGroup rest g i

/-- `base_groups`: the station ids grouped by the group key of their name, in
table order. -/
def baseGroups (stations : List (Nat × String)) : List (String × List Nat) :=
  stations.foldl (fun acc r => addToGroup acc (_group_key r.2) r.1) []

def groupLookup : List (String × List Nat) → String → List Nat
  | [], _ => []
  | (k, ids) :: rest, g => if k = g then ids else groupLookup rest g

/-- All ordered pairs of `a` with the later members. -/
def pairsWith (a : Nat) (rest : List Nat) : List (Nat × Nat) :=
  rest.foldr (fun b acc => (a, b) :: (b, a) :: acc) []

/-- The double loop over `i < j`: both ordered pairs for every unordered
pair of positions. -/
def allPairs : List Nat → List (Nat × Nat)
  | [] => []
  | a :: rest => pairsWith a rest ++ allPairs rest

/-- `transfer_edges`: for every group with at least two members, every
ordered pair of members (a list whose membership is the Python set). -/
def transferEdges (stations : List (Nat × String)) : List (Nat × Nat) :=
  (baseGroups stations).foldr
    (fun g acc => (if 2 ≤ g.2.length then allPairs g.2 else []) ++ acc) []

/-- `INSERT OR REPLACE` keyed on `(from_id, to_id)`: drop any existing row
with this key and append the new row. -/
def upsert (t : List (Nat × Nat × ℚ)) (row : Nat × Nat × ℚ) :
    List (Nat × Nat × ℚ) :=
  (t.filter (fun r => !(r.1 == row.1 && r.2.1 == row.2.1))) ++ [row]

/-- The routes table `import_routes` leaves behind.  One row per parsed
sequence edge (lines 277-282; arbitrary here), so `seqRows = []` exactly
when `seq_edges` is empty and the function returned at lines 231-233 (or
226-229 found nothing) leaving the table empty; otherwise the sequence-edge
rows followed by a zero-weight row per transfer pair (lines 284-285),
upserted in order into the empty table. -/
def import_routes_table (stations : List (Nat × String))
    (seqRows : List (Nat × Nat × ℚ)) : List (Nat × Nat × ℚ) :=
  if seqRows = [] then []
  else
    (seqRows ++
      (transferEdges stations).map (fun p => (p.1, p.2, (0 : ℚ)))).foldl
      upsert []

/-- The stored weight of the directed edge `(u, v)` (the key is unique, so
the first matching row is the row). -/
def edgeWeight (t : List (Nat × Nat × ℚ)) (u v : Nat) : Option ℚ :=
  (t.find? (fun r => r.1 == u && r.2.1 == v)).map (fun r => r.2.2)

theorem groupLookup_addToGroup_same : ∀ (acc : List (String × List Nat))
    (g : String) (i : Nat),
    groupLookup (addToGroup acc g i) g = groupLookup acc g ++ [i] := by
  intro acc
  induction acc with
  | nil => intro g i; simp [addToGroup, groupLookup]
  | cons e rest ih =>
      intro g i
      obtain ⟨k, ids⟩ := e
      by_cases hk : k = g
      · subst hk
        simp [addToGroup, groupLookup]
      · simp only [addToGroup, if_neg hk, groupLookup]
        exact ih g i

theorem groupLookup_addToGroup_other : ∀ (acc : List (String × List Nat))
    (g g' : String) (i : Nat), g' ≠ g →
    groupLookup (addToGroup acc g i) g' = groupLookup acc g' := by
  intro acc
  induction acc with
  | nil =>
      intro g g' i hne
      simp only [addToGroup, groupLookup]
      rw [if_neg (fun h => hne h.symm)]
  | cons e rest ih =>
      intro g g' i hne
      obtain ⟨k, ids⟩ := e
      by_cases hk : k = g
      · subst hk
        simp only [addToGroup, if_pos rfl, groupLookup]
        rw [if_neg (fun h => hne h.symm), if_neg (fun h => hne h.symm)]
      · simp only [addToGroup, if_neg hk, groupLookup]
        by_cases hk' : k = g'
        · rw [if_pos hk', if_pos hk']
        · rw [if_neg hk', if_neg hk', ih g g' i hne]

theorem mem_groupLookup_addToGroup {a : Nat} {acc : List (String × List Nat)}
    {g' : String} (h : a ∈ groupLookup acc g') (g : String) (i : Nat) :
    a ∈ groupLookup (addToGroup acc g i) g' := by
  by_cases hg : g' = g
  · subst hg
    rw [groupLookup_addToGroup_same]
    exact List.mem_append_left _ h
  · rw [groupLookup_addToGroup_other acc g g' i hg]
    exact h

theorem mem_groupLookup_foldl {a : Nat} {g' : String} :
    ∀ (stations : List (Nat × String)) (acc : List (String × List Nat)),
    a ∈ groupLookup acc g' →
    a ∈ groupLookup
      (stations.foldl (fun acc r => addToGroup acc (_group_key r.2) r.1) acc) g' := by
  intro stations
  induction stations with
  | nil => intro acc h; exact h
  | cons r rest ih =>
      intro acc h
      exact ih _ (mem_groupLookup_addToGroup h _ _)

theorem mem_groupLookup_of_mem {a : Nat} {na : String} :
    ∀ (stations : List (Nat × String)) (acc : List (String × List Nat)),
    (a, na) ∈ stations →
    a ∈ groupLookup
      (stations.foldl (fun acc r => addToGroup acc (_group_key r.2) r.1) acc)
      (_group_key na) := by
  intro stations
  induction stations with
  | nil => intro acc h; simp at h
  | cons r rest ih =>
      intro acc h
      simp only [List.foldl_cons]
      rcases List.mem_cons.mp h with h | h
      · subst h
        dsimp only
        apply mem_groupLookup_foldl rest _
        rw [groupLookup_addToGroup_same]
        exact List.mem_append_right _ (List.mem_singleton_self _)
      · exact ih _ h

theorem groupLookup_mem_entries : ∀ (bg : List (String × List Nat)) (g : String),
    groupLookup bg g ≠ [] → (g, groupLookup bg g) ∈ bg := by
  intro bg
  induction bg with
  | nil => intro g h; exact absurd rfl h
  | cons e rest ih =>
      intro g h
      obtain ⟨k, ids⟩ := e
      by_cases hk : k = g
      · subst hk
        simp only [groupLookup, if_pos rfl] at h ⊢
        exact List.mem_cons_self _ _
      · simp only [groupLookup, if_neg hk] at h ⊢
        exact List.mem_cons_of_mem _ (ih g h)

theorem mem_pairsWith {b : Nat} (a : Nat) :
    ∀ rest : List Nat, b ∈ rest →
    (a, b) ∈ pairsWith a rest ∧ (b, a) ∈ pairsWith a rest := by
  intro rest
  induction rest with
  | nil => intro h; simp at h
  | cons x t ih =>
      intro h
      simp only [pairsWith, List.foldr_cons]
      rcases List.mem_cons.mp h with h | h
      · subst h
        exact ⟨List.mem_cons_self _ _,
          List.mem_cons_of_mem _ (List.mem_cons_self _ _)⟩
      · obtain ⟨h1, h2⟩ := ih h
        exact ⟨List.mem_cons_of_mem _ (List.mem_cons_of_mem _ h1),
          List.mem_cons_of_mem _ (List.mem_cons_of_mem _ h2)⟩

theorem mem_allPairs {a b : Nat} : ∀ l : List Nat,
    a ∈ l → b ∈ l → a ≠ b → (a, b) ∈ allPairs l := by
  intro l
  induction l with
  | nil => intro ha _ _; simp at ha
  | cons x t ih =>
      intro ha hb hab
      simp only [allPairs]
      rcases List.mem_cons.mp ha with hax | hat
      · rcases List.mem_cons.mp hb with hbx | hbt
        · exact absurd (hax.trans hbx.symm) hab
        · subst hax
          exact List.mem_append_left _ (mem_pairsWith a t hbt).1
      · rcases List.mem_cons.mp hb with hbx | hbt
        · subst hbx
          exact List.mem_append_left _ (mem_pairsWith b t hat).2
        · exact List.mem_append_right _ (ih hat hbt hab)

theorem mem_foldr_groups {g : String} {ids : List Nat} {p : Nat × Nat}
    (hlen : 2 ≤ ids.length) (hp : p ∈ allPairs ids) :
    ∀ gl : List (String × List Nat), (g, ids) ∈ gl →
    p ∈ gl.foldr
      (fun e acc => (if 2 ≤ e.2.length then allPairs e.2 else []) ++ acc) [] := by
  intro gl
  induction gl with
  | nil => intro h; simp at h
  | cons e rest ih =>
      intro hmem
      simp only [List.foldr_cons]
      rcases List.mem_cons.mp hmem with he | he
      · rw [← he]
        dsimp only
        rw [if_pos hlen]
        exact List.mem_append_left _ hp
      · exact List.mem_append_right _ (ih he)

theorem mem_transferEdges_of_group {stations : List (Nat × String)}
    {g : String} {ids : List Nat} {p : Nat × Nat}
    (hmem : (g, ids) ∈ baseGroups stations) (hlen : 2 ≤ ids.length)
    (hp : p ∈ allPairs ids) : p ∈ transferEdges stations :=
  mem_foldr_groups hlen hp (baseGroups stations) hmem

theorem key_false_of_ne {row : Nat × Nat × ℚ} {u v : Nat}
    (hne : ¬(row.1 = u ∧ row.2.1 = v)) :
    (row.1 == u && row.2.1 == v) = false := by
  by_cases h1 : row.1 = u
  · by_cases h2 : row.2.1 = v
    · exact absurd ⟨h1, h2⟩ hne
    · simp [h2]
  · simp [h1]

theorem find?_filter_none (u v : Nat) : ∀ t : List (Nat × Nat × ℚ),
    (t.filter (fun r => !(r.1 == u && r.2.1 == v))).find?
      (fun r => r.1 == u && r.2.1 == v) = none := by
  intro t
  induction t with
  | nil => rfl
  | cons r rest ih =>
      rw [List.filter_cons]
      cases hk : (r.1 == u && r.2.1 == v) with
      | true =>
          rw [if_neg (by decide : ¬((!true) = true))]
          exact ih
      | false =>
          rw [if_pos (by decide : ((!false) = true))]
          rw [List.find?_cons_of_neg _ (by simp [hk])]
          exact ih

theorem edgeWeight_upsert_self (t : List (Nat × Nat × ℚ)) (u v : Nat) (w : ℚ) :
    edgeWeight (upsert t (u, v, w)) u v = some w := by
  unfold edgeWeight upsert
  rw [List.find?_append]
  simp only [find?_filter_none u v t, Option.none_or]
  simp [List.find?_cons]

theorem find?_filter_of_imp {α : Type} (p q : α → Bool)
    (himp : ∀ x, p x = true → q x = true) :
    ∀ l : List α, (l.filter q).find? p = l.find? p := by
  intro l
  induction l with
  | nil => rfl
  | cons x rest ih =>
      simp only [List.filter_cons]
      by_cases hq : q x = true
      · rw [hq]
        simp only [List.find?_cons]
        cases hp : p x
        · simpa [hp] using ih
        · simp [hp]
      · have hp : p x = false := by
          cases hp : p x
          · rfl
          · exact absurd (himp x hp) hq
        rw [show q x = false by simpa using hq]
        simp only [List.find?_cons, hp]
        exact ih

theorem edgeWeight_upsert_other (t : List (Nat × Nat × ℚ)) (u v : Nat)
    (row : Nat × Nat × ℚ) (hne : ¬(row.1 = u ∧ row.2.1 = v)) :
    edgeWeight (upsert t row) u v = edgeWeight t u v := by
  have hrow : (row.1 == u && row.2.1 == v) = false := key_false_of_ne hne
  have himp : ∀ x : Nat × Nat × ℚ, (x.1 == u && x.2.1 == v) = true →
      (!(x.1 == row.1 && x.2.1 == row.2.1)) = true := by
    intro x hx
    simp only [Bool.and_eq_true, beq_iff_eq] at hx
    cases hb : (x.1 == row.1 && x.2.1 == row.2.1) with
    | false => simp [hb]
    | true =>
        simp only [Bool.and_eq_true, beq_iff_eq] at hb
        exact absurd ⟨hb.1 ▸ hx.1, hb.2 ▸ hx.2⟩ hne
  unfold edgeWeight upsert
  rw [List.find?_append]
  rw [find?_filter_of_imp (fun r : Nat × Nat × ℚ => r.1 == u && r.2.1 == v)
      (fun r : Nat × Nat × ℚ => !(r.1 == row.1 && r.2.1 == row.2.1)) himp t]
  have hsing : List.find? (fun r : Nat × Nat × ℚ => r.1 == u && r.2.1 == v)
      [row] = none := by
    rw [List.find?_cons_of_neg _ (by simp [hrow])]
    rfl
  rw [hsing]
  cases t.find? (fun r => r.1 == u && r.2.1 == v) <;> rfl

theorem edgeWeight_foldl_no_key (u v : Nat) :
    ∀ (rows : List (Nat × Nat × ℚ)) (t : List (Nat × Nat × ℚ)),
    (∀ r ∈ rows, ¬(r.1 = u ∧ r.2.1 = v)) →
    edgeWeight (rows.foldl upsert t) u v = edgeWeight t u v := by
  intro rows
  induction rows with
  | nil => intro t _; rfl
  | cons r rest ih =>
      intro t hno
      simp only [List.foldl_cons]
      rw [ih _ (fun x hx => hno x (List.mem_cons_of_mem _ hx))]
      exact edgeWeight_upsert_other t u v r (hno r (List.mem_cons_self _ _))

theorem edgeWeight_foldl_zero (u v : Nat) :
    ∀ (rows : List (Nat × Nat × ℚ)) (t : List (Nat × Nat × ℚ)),
    (∀ r ∈ rows, r.1 = u → r.2.1 = v → r.2.2 = 0) →
    (∃ r ∈ rows, r.1 = u ∧ r.2.1 = v) →
    edgeWeight (rows.foldl upsert t) u v = some 0 := by
  intro rows
  induction rows with
  | nil => intro t _ hex; simp at hex
  | cons row rest ih =>
      intro t hzero hex
      simp only [List.foldl_cons]
      by_cases hrest : ∃ y ∈ rest, y.1 = u ∧ y.2.1 = v
      · exact ih _ (fun y hy => hzero y (List.mem_cons_of_mem _ hy)) hrest
      · obtain ⟨x, hx, hxu, hxv⟩ := hex
        rcases List.mem_cons.mp hx with hx1 | hx1
        · have hru : row.1 = u := hx1 ▸ hxu
          have hrv : row.2.1 = v := hx1 ▸ hxv
          have hw : row.2.2 = 0 := hzero row (List.mem_cons_self _ _) hru hrv
          rw [edgeWeight_foldl_no_key u v rest _
            (fun y hy hkey => hrest ⟨y, hy, hkey⟩)]
          have hr : row = (u, v, (0 : ℚ)) := by
            obtain ⟨r1, r2, r3⟩ := row
            dsimp only at hru hrv hw
            rw [hru, hrv, hw]
          rw [hr]
          exact edgeWeight_upsert_self t u v 0
        · exact absurd ⟨x, hx1, hxu, hxv⟩ hrest

theorem two_le_length_of_mem {a b : Nat} : ∀ l : List Nat,
    a ∈ l → b ∈ l → a ≠ b → 2 ≤ l.length := by
  intro l
  cases l with
  | nil => intro ha _ _; simp at ha
  | cons x t =>
      cases t with
      | nil =>
          intro ha hb hab
          simp only [List.mem_singleton] at ha hb
          exact absurd (ha.trans hb.symm) hab
      | cons y t' =>
          intro _ _ _
          simp only [List.length_cons]
          omega

def c5stations : List (Nat × String) := [(1, "X (L1)"), (2, "X (L2)")]

/-- Counterexample to C5 as stated: stations `X (L1)` and `X (L2)` share a
group key, yet when `Route.csv` parses to no sequence edges `import_routes`
returns at lines 231-233 before writing anything, so after the graph build
no zero-weight interchange edge exists in either direction. -/
theorem c5_counterexample :
    (1, "X (L1)") ∈ c5stations ∧ (2, "X (L2)") ∈ c5stations
    ∧ (1 : Nat) ≠ 2 ∧ _group_key "X (L1)" = _group_key "X (L2)"
    ∧ edgeWeight (import_routes_table c5stations []) 1 2 = none
    ∧ edgeWeight (import_routes_table c5stations []) 2 1 = none := by
  refine ⟨by decide, by decide, by decide, by decide, ?_, ?_⟩ <;> rfl

/-- C5 (amended): provided at least one sequence edge was parsed from
`Route.csv` (otherwise `import_routes` returns early and writes no rows at
all), after the graph build every ordered pair of distinct stations with
the same group key carries a directed edge of weight exactly zero — in
particular the interchange edge set is symmetric. -/
theorem c5_interchange_zero_edges (stations : List (Nat × String))
    (seqRows : List (Nat × Nat × ℚ)) (a b : Nat) (na nb : String)
    (hseq : seqRows ≠ [])
    (ha : (a, na) ∈ stations) (hb : (b, nb) ∈ stations) (hab : a ≠ b)
    (hg : _group_key na = _group_key nb) :
    edgeWeight (import_routes_table stations seqRows) a b = some 0
    ∧ edgeWeight (import_routes_table stations seqRows) b a = some 0 := by
  have hga : a ∈ groupLookup (baseGroups stations) (_group_key na) :=
    mem_groupLookup_of_mem stations [] ha
  have hgb : b ∈ groupLookup (baseGroups stations) (_group_key na) := by
    rw [hg]
    exact mem_groupLookup_of_mem stations [] hb
  have hne : groupLookup (baseGroups stations) (_group_key na) ≠ [] := by
    intro h
    rw [h] at hga
    simp at hga
  have hentry := groupLookup_mem_entries (baseGroups stations) (_group_key na) hne
  have hlen := two_le_length_of_mem _ hga hgb hab
  have hedge : ∀ u v : Nat,
      (u, v) ∈ transferEdges stations →
      edgeWeight (import_routes_table stations seqRows) u v = some 0 := by
    intro u v hmem
    unfold import_routes_table
    rw [if_neg hseq, List.foldl_append]
    apply edgeWeight_foldl_zero
    · intro r hr _ _
      obtain ⟨p, _, hp⟩ := List.mem_map.mp hr
      rw [← hp]
    · exact ⟨(u, v, 0), List.mem_map.mpr ⟨(u, v), hmem, rfl⟩, rfl, rfl⟩
  constructor
  · exact hedge a b (mem_transferEdges_of_group hentry hlen
      (mem_allPairs _ hga hgb hab))
  · exact hedge b a (mem_transferEdges_of_group hentry hlen
      (mem_allPairs _ hgb hga (fun h => hab h.symm)))

/-- Witness for C5: two line-qualified variants of one stop, with a non-zero
sequence edge between them that the zero transfer row replaces. -/
theorem c5_witness :
    (([((1 : Nat), (2 : Nat), (5 : ℚ))] : List (Nat × Nat × ℚ)) ≠ []
      ∧ (1, "X (L1)") ∈ c5stations ∧ (2, "X (L2)") ∈ c5stations
      ∧ (1 : Nat) ≠ 2 ∧ _group_key "X (L1)" = _group_key "X (L2)")
    ∧ (edgeWeight (import_routes_table c5stations [(1, 2, 5)]) 1 2 = some 0
      ∧ edgeWeight (import_routes_table c5stations [(1, 2, 5)]) 2 1 = some 0) :=
  ⟨⟨by simp, by decide, by decide, by decide, by decide⟩,
   c5_interchange_zero_edges c5stations [(1, 2, 5)] 1 2 "X (L1)" "X (L2)"
     (by simp) (by decide) (by decide) (by decide) (by decide)⟩

/-! ## Claim C9: `_broadcast` (`realtime.py` lines 58-72)

A WebSocket handle is modelled by an identity and by whether its `send`
raises.  `_broadcast` walks the client list delivering to each handle,
collecting the failing ones in `dead`, and only after the loop removes each
dead handle from the client list (`list.remove`, i.e. first-occurrence
erase). -/

structure WsClient where
  cid : Nat
  fails : Bool
deriving DecidableEq

/-- The `for w in _clients: try: w.send(data) except: dead.append(w)` loop:
returns the deliveries made (in order) and the dead list (in order). -/
def broadcastPass (ev : String) : List WsClient →
    List (WsClient × String) × List WsClient
  | [] => ([], [])
  | c :: rest =>
      let r := broadcastPass ev rest
      if c.fails then (r.1, c :: r.2) else ((c, ev) :: r.1, r.2)

/-- `for w in dead: _clients.remove(w)` — performed after the delivery pass
completes. -/
def removeDead (clients : List WsClient) (dead : List WsClient) :
    List WsClient :=
  dead.foldl (fun cs w => cs.erase w) clients

/-- `_broadcast`: the deliveries of this publish pass (computed over the full
subscriber list) and the subscriber list afterwards. -/
def _broadcast (clients : List WsClient) (ev : String) :
    List (WsClient × String) × List WsClient :=
  let r := broadcastPass ev clients
  (r.1, removeDead clients r.2)

theorem broadcastPass_deliveries (ev : String) : ∀ clients : List WsClient,
    (broadcastPass ev clients).1 =
      (clients.filter (fun c => !c.fails)).map (fun c => (c, ev)) := by
  intro clients
  induction clients with
  | nil => rfl
  | cons c rest ih =>
      simp only [broadcastPass, List.filter_cons]
      cases hc : c.fails with
      | true =>
          rw [if_pos rfl, if_neg (by decide : ¬((!true) = true))]
          exact ih
      | false =>
          rw [if_neg (by decide : ¬(false = true)),
            if_pos (by decide : (!false) = true)]
          dsimp only
          rw [List.map_cons, ih]

theorem broadcastPass_dead (ev : String) : ∀ clients : List WsClient,
    (broadcastPass ev clients).2 = clients.filter (fun c => c.fails) := by
  intro clients
  induction clients with
  | nil => rfl
  | cons c rest ih =>
      simp only [broadcastPass, List.filter_cons]
      cases hc : c.fails with
      | true =>
          rw [if_pos rfl, if_pos rfl]
          dsimp only
          rw [ih]
      | false =>
          rw [if_neg (by decide : ¬(false = true)),
            if_neg (by decide : ¬(false = true))]
          exact ih

theorem removeDead_eq_diff (clients dead : List WsClient) :
    removeDead clients dead = clients.diff dead := by
  rw [List.diff_eq_foldl]
  rfl

/-- C9: a send failure on one handle leaves every other handle's delivery of
the current event intact, the failing handles are removed only after the
pass (the surviving set is exactly the non-failing subscribers), and a failed
subscriber receives nothing in any later publish while the others continue
receiving. -/
theorem c9_broadcast_isolation (clients : List WsClient) (ev : String)
    (hnd : clients.Nodup) :
    (∀ c ∈ clients, c.fails = false → (c, ev) ∈ (_broadcast clients ev).1)
    ∧ (∀ c, c ∈ (_broadcast clients ev).2 ↔ c ∈ clients ∧ c.fails = false)
    ∧ (∀ ev' c, c ∈ clients → c.fails = false →
        (c, ev') ∈ (_broadcast (_broadcast clients ev).2 ev').1)
    ∧ (∀ ev' c, c.fails = true →
        (c, ev') ∉ (_broadcast (_broadcast clients ev).2 ev').1) := by
  have hmem : ∀ c, c ∈ (_broadcast clients ev).2 ↔ c ∈ clients ∧ c.fails = false := by
    intro c
    show c ∈ removeDead clients (broadcastPass ev clients).2 ↔ _
    rw [removeDead_eq_diff, broadcastPass_dead,
      List.Nodup.mem_diff_iff hnd, List.mem_filter]
    constructor
    · rintro ⟨h1, h2⟩
      refine ⟨h1, ?_⟩
      cases hc : c.fails
      · rfl
      · exact absurd ⟨h1, hc⟩ h2
    · rintro ⟨h1, h2⟩
      exact ⟨h1, fun hb => by rw [h2] at hb; exact Bool.noConfusion hb.2⟩
  have hdel : ∀ (cl : List WsClient) (e : String) (c : WsClient),
      c ∈ cl → c.fails = false → (c, e) ∈ (_broadcast cl e).1 := by
    intro cl e c hc hf
    show (c, e) ∈ (broadcastPass e cl).1
    rw [broadcastPass_deliveries]
    exact List.mem_map.mpr ⟨c, List.mem_filter.mpr ⟨hc, by simp [hf]⟩, rfl⟩
  refine ⟨fun c hc hf => hdel clients ev c hc hf, hmem, ?_, ?_⟩
  · intro ev' c hc hf
    exact hdel _ ev' c ((hmem c).mpr ⟨hc, hf⟩) hf
  · intro ev' c hf hmem'
    have hm2 : (c, ev') ∈ (broadcastPass ev' (_broadcast clients ev).2).1 := hmem'
    rw [broadcastPass_deliveries] at hm2
    obtain ⟨x, hx, hxe⟩ := List.mem_map.mp hm2
    obtain ⟨-, hxf⟩ := List.mem_filter.mp hx
    have : x = c := congrArg Prod.fst hxe
    rw [this] at hxf
    rw [hf] at hxf
    exact Bool.noConfusion hxf

def c9clients : List WsClient := [⟨1, false⟩, ⟨2, true⟩, ⟨3, false⟩]

/-- Witness for C9: three subscribers with the middle one failing. -/
theorem c9_witness :
    c9clients.Nodup
    ∧ ((∀ c ∈ c9clients, c.fails = false → (c, "ev") ∈ (_broadcast c9clients "ev").1)
      ∧ (∀ c, c ∈ (_broadcast c9clients "ev").2 ↔ c ∈ c9clients ∧ c.fails = false)
      ∧ (∀ ev' c, c ∈ c9clients → c.fails = false →
          (c, ev') ∈ (_broadcast (_broadcast c9clients "ev").2 ev').1)
      ∧ (∀ ev' c, c.fails = true →
          (c, ev') ∉ (_broadcast (_broadcast c9clients "ev").2 ev').1)) :=
  ⟨by decide, c9_broadcast_isolation c9clients "ev" (by decide)⟩

/-! ## Claims C7 and C8: the train registry (`realtime.py` lines 76-141)

A Python dict is modelled as an association list with unique keys:
assignment replaces the value in place when the key exists and appends
otherwise. -/

def dictSet {β : Type} (m : List (String × β)) (k : String) (v : β) :
    List (String × β) :=
  if (m.lookup k).isSome then
    m.map (fun e => if e.1 = k then (k, v) else e)
  else m ++ [(k, v)]

theorem string_lookup_cons_self {β : Type} (k : String) (b : β)
    (l : List (String × β)) : List.lookup k ((k, b) :: l) = some b := by
  simp [List.lookup]

theorem string_lookup_cons_ne {β : Type} (x k : String) (b : β)
    (l : List (String × β)) (h : x ≠ k) :
    List.lookup x ((k, b) :: l) = List.lookup x l := by
  rw [List.lookup_cons, beq_false_of_ne h]

theorem dictSet_lookup_self {β : Type} (k : String) (v : β) :
    ∀ m : List (String × β), (dictSet m k v).lookup k = some v := by
  intro m
  unfold dictSet
  induction m with
  | nil => simp [List.lookup]
  | cons e rest ih =>
      obtain ⟨ek, ev⟩ := e
      by_cases hek : ek = k
      · subst hek
        rw [string_lookup_cons_self]
        simp only [Option.isSome_some, if_true, List.map_cons, if_pos rfl]
        exact string_lookup_cons_self _ v _
      · rw [string_lookup_cons_ne k ek ev rest (fun h => hek h.symm)]
        cases hr : (rest.lookup k).isSome with
        | true =>
            rw [hr] at ih
            simp only [if_true] at ih
            simp only [if_true, List.map_cons, if_neg hek]
            rw [string_lookup_cons_ne k ek ev _ (fun h => hek h.symm)]
            exact ih
        | false =>
            rw [hr] at ih
            simp only [Bool.false_eq_true, if_false] at ih
            simp only [Bool.false_eq_true, if_false, List.cons_append]
            rw [string_lookup_cons_ne k ek ev _ (fun h => hek h.symm)]
            exact ih

/-- `TrainThread.__init__` state (`realtime.py` lines 76-84): the stored
fields plus the cooperative stop flag (`threading.Event`). -/
structure TrainThread where
  train_id : String
  path : List String
  edge_secs : List ℚ
  loop : Bool
  ping_interval : ℚ
  stopFlag : Bool
deriving DecidableEq

/-- `start_train` (`realtime.py` lines 120-129): signal the old same-named
train if any (its registry entry keeps the flagged object until the
reassignment), then register and start the new thread.  There is **no**
validation of `len(per_edge_seconds)` against `len(path_names) - 1` — every
input is accepted. -/
def start_train (trains : List (String × TrainThread)) (id : String)
    (path : List String) (secs : List ℚ) (loop : Bool) (ping : ℚ) :
    List (String × TrainThread) :=
  let trains' :=
    match trains.lookup id with
    | some old => dictSet trains id { old with stopFlag := true }
    | none => trains
  dictSet trains' id ⟨id, path, secs, loop, max (1/5) ping, false⟩

/-- The per-edge duration `TrainThread.run` actually uses
(`realtime.py` line 94):
`max(1.0, edge_secs[idx] if idx < len(edge_secs) else 8.0)`. -/
def edgeDur (t : TrainThread) (idx : Nat) : ℚ :=
  max 1 (t.edge_secs.getD idx 8)

def c7thread : TrainThread := ⟨"T", ["A", "B", "C"], [], true, 1, false⟩

/-- C7 counterexample: a three-station path with an empty duration array —
`len(per_edge_durations) ≠ len(path_names) - 1` — is accepted by
`start_train` (a train is registered, no invalid-input failure exists in the
function), and the simulation runs both edges with the default duration 8. -/
theorem c7_counterexample :
    (([] : List ℚ).length ≠ (["A", "B", "C"] : List String).length - 1)
    ∧ ((start_train [] "T" ["A", "B", "C"] [] true 1).lookup "T").isSome = true
    ∧ ((start_train [] "T" ["A", "B", "C"] [] true 1).lookup "T").map
        TrainThread.edge_secs = some []
    ∧ ((start_train [] "T" ["A", "B", "C"] [] true 1).lookup "T").map
        TrainThread.path = some ["A", "B", "C"]
    ∧ edgeDur c7thread 0 = 8 ∧ edgeDur c7thread 1 = 8 :=
  ⟨by decide, by decide, by decide, by decide, by decide, by decide⟩

/-- C7 amended: `start_train` never validates the duration-array length — it
always registers and starts a thread with exactly the given arrays — and
`TrainThread.run` substitutes the default of `8.0` seconds for each missing
per-edge entry (all durations floored at `1.0`) while ignoring surplus
entries. -/
theorem c7_no_validation (trains : List (String × TrainThread)) (id : String)
    (path : List String) (secs : List ℚ) (loop : Bool) (ping : ℚ) :
    (start_train trains id path secs loop ping).lookup id =
      some ⟨id, path, secs, loop, max (1/5) ping, false⟩
    ∧ (∀ idx, secs.length ≤ idx →
        edgeDur ⟨id, path, secs, loop, max (1/5) ping, false⟩ idx = max 1 8)
    ∧ (∀ idx (h : idx < secs.length),
        edgeDur ⟨id, path, secs, loop, max (1/5) ping, false⟩ idx =
          max 1 (secs.get ⟨idx, h⟩)) := by
  refine ⟨dictSet_lookup_self id _ _, ?_, ?_⟩
  · intro idx hidx
    unfold edgeDur
    rw [List.getD_eq_getElem?_getD, List.getElem?_eq_none (by simpa using hidx)]
    rfl
  · intro idx h
    unfold edgeDur
    rw [List.getD_eq_getElem?_getD, List.getElem?_eq_getElem h]
    rfl

/-- Witness for the amended C7 at a concrete mismatched call. -/
theorem c7_witness :
    (start_train [] "T" ["A", "B", "C"] [] true 1).lookup "T" =
      some ⟨"T", ["A", "B", "C"], [], true, max (1/5) 1, false⟩
    ∧ edgeDur ⟨"T", ["A", "B", "C"], [], true, max (1/5) 1, false⟩ 0 = max 1 8 :=
  ⟨(c7_no_validation [] "T" ["A", "B", "C"] [] true 1).1,
   (c7_no_validation [] "T" ["A", "B", "C"] [] true 1).2.1 0 (by decide)⟩

/-! ## Claim C8: at most one active simulation per train id

Interleaving model of `start_train` and the running `TrainThread`s
(`realtime.py` lines 86-129).  Each thread is reduced to the control points
of `run` that are relevant to event emission: `emitStarted` (the
`train_status started` broadcast, line 89), `checkLoop` (the
`while not self._stop.is_set()` test, lines 90/96), `emitTick` (the
`train_tick` broadcast, lines 99-105 — reached only after a check that
passed, so a tick can still be emitted after the flag is set), `emitStopped`
(the `finally` broadcast, line 112) and `dead`.  Wall-clock progress values,
sleeping and the per-segment structure are abstracted away; a scheduler step
runs one thread between two of these points.  `start_train` sets the old
thread's stop flag and replaces the registry entry, without joining the old
thread. -/

inductive TPc where
  | emitStarted | checkLoop | emitTick | emitStopped | dead
deriving DecidableEq

structure SimThread where
  tid : Nat
  train_id : String
  stopFlag : Bool
  pc : TPc
deriving DecidableEq

structure SimEvent where
  kind : String
  train_id : String
  tid : Nat
deriving DecidableEq

structure SimSys where
  registry : List (String × Nat)
  threads : List SimThread
  nextTid : Nat
  log : List SimEvent
deriving DecidableEq

inductive SimAct where
  | start (id : String)
  | step (tid : Nat)
deriving DecidableEq

def setStopFlag (threads : List SimThread) (tid : Nat) : List SimThread :=
  threads.map (fun t => if t.tid = tid then { t with stopFlag := true } else t)

/-- `start_train`: signal the old instance if registered, then register and
start the new thread (`_trains[train_id] = t; t.start()`). -/
def simStart (s : SimSys) (id : String) : SimSys :=
  let thr :=
    match s.registry.lookup id with
    | some old => setStopFlag s.threads old
    | none => s.threads
  { registry := dictSet s.registry id s.nextTid,
    threads := thr ++ [⟨s.nextTid, id, false, TPc.emitStarted⟩],
    nextTid := s.nextTid + 1,
    log := s.log }

/-- One scheduling step of a thread between two broadcast-relevant control
points of `TrainThread.run`. -/
def stepThread (t : SimThread) : SimThread × Option SimEvent :=
  match t.pc with
  | .emitStarted => ({ t with pc := .checkLoop }, some ⟨"started", t.train_id, t.tid⟩)
  | .checkLoop =>
      if t.stopFlag then ({ t with pc := .emitStopped }, none)
      else ({ t with pc := .emitTick }, none)
  | .emitTick => ({ t with pc := .checkLoop }, some ⟨"tick", t.train_id, t.tid⟩)
  | .emitStopped => ({ t with pc := .dead }, some ⟨"stopped", t.train_id, t.tid⟩)
  | .dead => (t, none)

def simStep (s : SimSys) (tid : Nat) : SimSys :=
  match s.threads.find? (fun t => t.tid == tid) with
  | none => s
  | some t =>
      let r := stepThread t
      { s with
        threads := s.threads.map (fun t' => if t'.tid = tid then r.1 else t'),
        log := match r.2 with
          | some e => s.log ++ [e]
          | none => s.log }

def simAct (s : SimSys) : SimAct → SimSys
  | .start id => simStart s id
  | .step tid => simStep s tid

def simRun (s : SimSys) (acts : List SimAct) : SimSys := acts.foldl simAct s

def simInit : SimSys := ⟨[], [], 0, []⟩

def c8trace : List SimAct :=
  [.start "T1", .step 0, .step 0, .start "T1", .step 1, .step 0]

/-- C8 counterexample: first train `T1` (thread 0) passes its stop-flag check
and is about to broadcast a tick; `start_train("T1", …)` then cancels it and
registers thread 1, thread 1 broadcasts its start, and thread 0 still
broadcasts its tick afterwards — two instances under the same id emit
concurrently, because `start_train` signals but never joins the old
thread. -/
theorem c8_counterexample :
    (simRun simInit c8trace).log =
      [⟨"started", "T1", 0⟩, ⟨"started", "T1", 1⟩, ⟨"tick", "T1", 0⟩]
    ∧ (simRun simInit c8trace).registry = [("T1", 1)]
    ∧ ⟨0, "T1", true, TPc.checkLoop⟩ ∈ (simRun simInit c8trace).threads :=
  ⟨by decide, by decide, by decide⟩

/-- C8 amended: starting a train whose id is already registered sets the stop
flag of every thread carrying the old tid and replaces the registry binding
with the new thread before it runs — the registry keeps at most one entry
per id — but the old thread is only signalled, not awaited: it may still
emit events after the new instance is active (see the counterexample
trace). -/
theorem lookup_none_not_key {β : Type} (k : String) :
    ∀ m : List (String × β), m.lookup k = none → k ∉ m.map Prod.fst := by
  intro m
  induction m with
  | nil => intro _ hk; simp at hk
  | cons e rest ih =>
      intro hl hk
      obtain ⟨ek, ev⟩ := e
      by_cases hek : k = ek
      · rw [hek, string_lookup_cons_self] at hl
        exact Option.noConfusion hl
      · rw [string_lookup_cons_ne _ _ _ _ hek] at hl
        simp only [List.map_cons, List.mem_cons] at hk
        rcases hk with hk | hk
        · exact hek hk
        · exact ih hl hk

theorem dictSet_keys_nodup {β : Type} (k : String) (v : β)
    (m : List (String × β)) (h : (m.map Prod.fst).Nodup) :
    ((dictSet m k v).map Prod.fst).Nodup := by
  unfold dictSet
  cases hl : (m.lookup k).isSome with
  | true =>
      rw [if_pos rfl]
      have he : ((m.map (fun e => if e.1 = k then (k, v) else e)).map Prod.fst)
          = m.map Prod.fst := by
        rw [List.map_map]
        apply List.map_congr_left
        intro e _
        by_cases hek : e.1 = k
        · simp [hek]
        · simp [hek]
      rw [he]
      exact h
  | false =>
      rw [if_neg (by decide : ¬(false = true))]
      rw [List.map_append]
      have hnone : m.lookup k = none := by
        cases hx : m.lookup k
        · rfl
        · rw [hx] at hl
          exact Bool.noConfusion hl
      refine List.Nodup.append h (List.nodup_singleton k) ?_
      intro a ha hb
      simp only [List.map_cons, List.map_nil, List.mem_singleton] at hb
      exact lookup_none_not_key k m hnone (hb ▸ ha)

theorem c8_replace_semantics (s : SimSys) (id : String) (old : Nat)
    (hold : s.registry.lookup id = some old) (hfresh : old ≠ s.nextTid) :
    (simStart s id).registry.lookup id = some s.nextTid
    ∧ (∀ t ∈ (simStart s id).threads, t.tid = old → t.stopFlag = true)
    ∧ ((s.registry.map Prod.fst).Nodup →
        ((simStart s id).registry.map Prod.fst).Nodup) := by
  unfold simStart
  rw [hold]
  dsimp only
  refine ⟨dictSet_lookup_self id s.nextTid s.registry, ?_, ?_⟩
  · intro t ht htid
    rcases List.mem_append.mp ht with ht | ht
    · obtain ⟨t0, _, ht0⟩ := List.mem_map.mp ht
      by_cases h0 : t0.tid = old
      · rw [if_pos h0] at ht0
        rw [← ht0]
      · rw [if_neg h0] at ht0
        rw [← ht0] at htid
        exact absurd htid h0
    · simp only [List.mem_singleton] at ht
      rw [ht] at htid
      exact absurd htid (fun h => hfresh h.symm)
  · intro hnd
    exact dictSet_keys_nodup id s.nextTid s.registry hnd

def c8s : SimSys := simRun simInit [SimAct.start "T1"]

/-- Witness for the amended C8: replacing the only registered train. -/
theorem c8_witness :
    (c8s.registry.lookup "T1" = some 0 ∧ (0 : Nat) ≠ c8s.nextTid)
    ∧ ((simStart c8s "T1").registry.lookup "T1" = some c8s.nextTid
      ∧ (∀ t ∈ (simStart c8s "T1").threads, t.tid = 0 → t.stopFlag = true)
      ∧ ((c8s.registry.map Prod.fst).Nodup →
          ((simStart c8s "T1").registry.map Prod.fst).Nodup)) :=
  ⟨⟨by decide, by decide⟩,
   c8_replace_semantics c8s "T1" 0 (by decide) (by decide)⟩

/-! ## Claim C10: `_group_key` removes every parenthesised group

The claim is settled through `parenSub`: for any occurrence of
`'(' … ')'` whose inner part is close-paren-free and whose prefix is
open-paren-free, the substitution deletes the group together with the
whitespace immediately before and after it and continues on the rest. -/

theorem findClose_append (suf : List Char) : ∀ inner : List Char,
    ')' ∉ inner → findClose (inner ++ (')' :: suf)) = some (inner, suf) := by
  intro inner
  induction inner with
  | nil => intro _; simp [findClose]
  | cons c rest ih =>
      intro h
      have hc : ¬c = ')' := fun hc => h (hc ▸ List.mem_cons_self _ _)
      simp only [List.cons_append, findClose, if_neg hc, List.append_eq]
      rw [ih (fun hm => h (List.mem_cons_of_mem _ hm))]

theorem findClose_split : ∀ l a b : List Char,
    findClose l = some (a, b) → l = a ++ (')' :: b) := by
  intro l
  induction l with
  | nil => intro a b h; exact Option.noConfusion h
  | cons c rest ih =>
      intro a b h
      simp only [findClose] at h
      by_cases hc : c = ')'
      · rw [if_pos hc] at h
        injection h with h'
        injection h' with h1 h2
        subst hc
        rw [← h1, ← h2]
        rfl
      · rw [if_neg hc] at h
        cases hr : findClose rest with
        | none => rw [hr] at h; exact Option.noConfusion h
        | some pr =>
            obtain ⟨a', b'⟩ := pr
            rw [hr] at h
            dsimp only at h
            injection h with h'
            injection h' with h1 h2
            rw [← h1, ← h2, List.cons_append]
            rw [ih a' b' hr]

theorem dropWhile_append_all {p : Char → Bool} : ∀ ws l : List Char,
    (∀ c ∈ ws, p c = true) →
    (ws ++ l).dropWhile p = l.dropWhile p := by
  intro ws l
  induction ws with
  | nil => intro _; rfl
  | cons w ws' ih =>
      intro hall
      rw [List.cons_append, List.dropWhile_cons]
      rw [hall w (List.mem_cons_self _ _)]
      simp only [if_true]
      exact ih (fun c hc => hall c (List.mem_cons_of_mem _ hc))

theorem dropWhile_head_false {p : Char → Bool} : ∀ (l : List Char)
    (c : Char) (t : List Char), l.dropWhile p = c :: t → p c = false := by
  intro l
  induction l with
  | nil => intro c t h; exact List.noConfusion h
  | cons x rest ih =>
      intro c t h
      rw [List.dropWhile_cons] at h
      by_cases hx : p x = true
      · rw [hx] at h
        simp only [if_true] at h
        exact ih c t h
      · have hx' : p x = false := by
          cases hpx : p x
          · rfl
          · exact absurd hpx hx
        rw [hx'] at h
        simp only [Bool.false_eq_true, if_false] at h
        injection h with h1 _
        rw [← h1]
        exact hx'

theorem dropWhile_append_exists {p : Char → Bool} : ∀ p₁ r : List Char,
    (∃ c ∈ p₁, p c = false) →
    (p₁ ++ r).dropWhile p = p₁.dropWhile p ++ r ∧ p₁.dropWhile p ≠ [] := by
  intro p₁ r
  induction p₁ with
  | nil =>
      intro hex
      obtain ⟨c, hc, _⟩ := hex
      simp at hc
  | cons x rest ih =>
      intro hex
      rw [List.cons_append, List.dropWhile_cons, List.dropWhile_cons]
      by_cases hx : p x = true
      · rw [hx]
        simp only [if_true]
        apply ih
        obtain ⟨c, hc, hcf⟩ := hex
        rcases List.mem_cons.mp hc with hc | hc
        · have hxf : p x = false := hc ▸ hcf
          rw [hx] at hxf
          exact Bool.noConfusion hxf
        · exact ⟨c, hc, hcf⟩
      · have hx' : p x = false := by
          cases hpx : p x
          · rfl
          · exact absurd hpx hx
        rw [hx']
        simp only [Bool.false_eq_true, if_false, List.cons_append]
        exact ⟨trivial, List.cons_ne_nil _ _⟩

theorem parenMatch_group (ws2 inner suf : List Char)
    (hws : ∀ c ∈ ws2, isPyWs c = true) (hinner : ')' ∉ inner) :
    parenMatch (ws2 ++ ('(' :: (inner ++ (')' :: suf)))) = some (lstripWs suf) := by
  unfold parenMatch
  have hdw : List.dropWhile isPyWs (ws2 ++ ('(' :: (inner ++ (')' :: suf))))
      = List.dropWhile isPyWs ('(' :: (inner ++ (')' :: suf))) :=
    dropWhile_append_all ws2 _ hws
  rw [hdw, List.dropWhile_cons]
  rw [show isPyWs '(' = false from rfl]
  simp only [Bool.false_eq_true, if_false]
  rw [if_pos trivial]
  rw [findClose_append suf inner hinner]
  rfl

theorem parenMatch_none_middle (p₁ : List Char) (hpar : '(' ∉ p₁)
    (hne : p₁ ≠ []) (hlast : isPyWs (p₁.getLast hne) = false) :
    ∀ r, parenMatch (p₁ ++ r) = none := by
  intro r
  have hex : ∃ c ∈ p₁, isPyWs c = false :=
    ⟨p₁.getLast hne, List.getLast_mem hne, hlast⟩
  obtain ⟨hsplit, hnil⟩ := dropWhile_append_exists p₁ r hex
  unfold parenMatch
  rw [hsplit]
  cases hdw : p₁.dropWhile isPyWs with
  | nil => exact absurd hdw hnil
  | cons d t =>
      rw [List.cons_append]
      dsimp only
      have hd : d ∈ p₁ :=
        (List.dropWhile_sublist isPyWs).subset
          (hdw ▸ List.mem_cons_self d t)
      have hdp : ¬d = '(' := fun h => hpar (h ▸ hd)
      rw [if_neg hdp]

theorem parenMatch_shrink : ∀ (l after : List Char),
    parenMatch l = some after → after.length < l.length := by
  intro l after h
  unfold parenMatch at h
  cases hdw : l.dropWhile isPyWs with
  | nil => rw [hdw] at h; exact Option.noConfusion h
  | cons c r2 =>
      rw [hdw] at h
      dsimp only at h
      by_cases hc : c = '('
      · rw [if_pos hc] at h
        cases hfc : findClose r2 with
        | none => rw [hfc] at h; exact Option.noConfusion h
        | some pr =>
            obtain ⟨a, b⟩ := pr
            rw [hfc] at h
            dsimp only at h
            injection h with h'
            have hsplit := findClose_split r2 a b hfc
            have h1 : (c :: r2).length ≤ l.length := by
              rw [← hdw]
              exact (List.dropWhile_sublist isPyWs).length_le
            have h2 : b.length < r2.length := by
              rw [hsplit]
              simp only [List.length_append, List.length_cons]
              omega
            have h3 : after.length ≤ b.length := by
              rw [← h']
              exact (List.dropWhile_sublist isPyWs).length_le
            simp only [List.length_cons] at h1
            omega
      · rw [if_neg hc] at h
        exact Option.noConfusion h

theorem parenSubGo_fuel : ∀ (n : Nat) (l : List Char), l.length ≤ n →
    ∀ f₁ f₂ : Nat, l.length < f₁ → l.length < f₂ →
    parenSubGo f₁ l = parenSubGo f₂ l := by
  intro n
  induction n with
  | zero =>
      intro l hl f₁ f₂ h1 h2
      have : l = [] := List.length_eq_zero.mp (Nat.le_zero.mp hl)
      subst this
      obtain ⟨g₁, rfl⟩ : ∃ g, f₁ = g + 1 := ⟨f₁ - 1, by omega⟩
      obtain ⟨g₂, rfl⟩ : ∃ g, f₂ = g + 1 := ⟨f₂ - 1, by omega⟩
      rfl
  | succ n ih =>
      intro l hl f₁ f₂ h1 h2
      cases l with
      | nil =>
          obtain ⟨g₁, rfl⟩ : ∃ g, f₁ = g + 1 := ⟨f₁ - 1, by omega⟩
          obtain ⟨g₂, rfl⟩ : ∃ g, f₂ = g + 1 := ⟨f₂ - 1, by omega⟩
          rfl
      | cons c rest =>
          obtain ⟨g₁, rfl⟩ : ∃ g, f₁ = g + 1 := ⟨f₁ - 1, by omega⟩
          obtain ⟨g₂, rfl⟩ : ∃ g, f₂ = g + 1 := ⟨f₂ - 1, by omega⟩
          simp only [parenSubGo]
          simp only [List.length_cons] at hl h1 h2
          cases hpm : parenMatch (c :: rest) with
          | some after =>
              have hlt := parenMatch_shrink (c :: rest) after hpm
              simp only [List.length_cons] at hlt
              exact ih after (by omega) g₁ g₂ (by omega) (by omega)
          | none =>
              rw [ih rest (by omega) g₁ g₂ (by omega) (by omega)]

theorem parenSub_cons_none (c : Char) (rest : List Char)
    (h : parenMatch (c :: rest) = none) :
    parenSub (c :: rest) = c :: parenSub rest := by
  unfold parenSub
  simp only [List.length_cons, parenSubGo]
  rw [h]

theorem parenSub_cons_match (c : Char) (rest after : List Char)
    (h : parenMatch (c :: rest) = some after) :
    parenSub (c :: rest) = parenSub after := by
  unfold parenSub
  simp only [List.length_cons, parenSubGo]
  rw [h]
  have hlt := parenMatch_shrink (c :: rest) after h
  simp only [List.length_cons] at hlt
  exact parenSubGo_fuel (rest.length + 1) after (by omega) (rest.length + 1)
    (after.length + 1) (by omega) (by omega)

theorem parenSub_concat : ∀ (p₁ : List Char), '(' ∉ p₁ →
    (∀ (h : p₁ ≠ []), isPyWs (p₁.getLast h) = false) →
    ∀ ws2 inner suf : List Char, (∀ c ∈ ws2, isPyWs c = true) → ')' ∉ inner →
    parenSub (p₁ ++ (ws2 ++ ('(' :: (inner ++ (')' :: suf)))))
      = p₁ ++ parenSub (lstripWs suf) := by
  intro p₁
  induction p₁ with
  | nil =>
      intro _ _ ws2 inner suf hws hinner
      simp only [List.nil_append]
      have hpm := parenMatch_group ws2 inner suf hws hinner
      cases ws2 with
      | nil =>
          simp only [List.nil_append] at hpm ⊢
          exact parenSub_cons_match _ _ _ hpm
      | cons w ws' =>
          simp only [List.cons_append] at hpm ⊢
          exact parenSub_cons_match _ _ _ hpm
  | cons c p₁' ih =>
      intro hpar hlast ws2 inner suf hws hinner
      have hlast' : ∀ (h : p₁' ≠ []), isPyWs (p₁'.getLast h) = false := by
        intro h
        have := hlast (List.cons_ne_nil c p₁')
        rw [List.getLast_cons h] at this
        exact this
      have hpm : parenMatch ((c :: p₁') ++ (ws2 ++ ('(' :: (inner ++ (')' :: suf)))))
          = none :=
        parenMatch_none_middle (c :: p₁')
          hpar (List.cons_ne_nil c p₁') (hlast (List.cons_ne_nil c p₁')) _
      rw [show (c :: p₁') ++ (ws2 ++ ('(' :: (inner ++ (')' :: suf))))
          = c :: (p₁' ++ (ws2 ++ ('(' :: (inner ++ (')' :: suf))))) from rfl] at hpm ⊢
      rw [parenSub_cons_none c _ hpm]
      rw [ih (fun hm => hpar (List.mem_cons_of_mem _ hm)) hlast'
        ws2 inner suf hws hinner]
      rfl

/-- Splitting a list at its trailing whitespace run. -/
def wsTail (l : List Char) : List Char :=
  (l.reverse.takeWhile isPyWs).reverse

theorem rstrip_append_wsTail (l : List Char) : rstripWs l ++ wsTail l = l := by
  unfold rstripWs wsTail
  rw [← List.reverse_append, List.takeWhile_append_dropWhile, List.reverse_reverse]

theorem wsTail_all_ws (l : List Char) : ∀ c ∈ wsTail l, isPyWs c = true := by
  intro c hc
  unfold wsTail at hc
  rw [List.mem_reverse] at hc
  exact List.mem_takeWhile_imp hc

theorem rstrip_getLast_not_ws (l : List Char) :
    ∀ (h : (rstripWs l) ≠ []), isPyWs ((rstripWs l).getLast h) = false := by
  intro h
  have h2 : l.reverse.dropWhile isPyWs ≠ [] := by
    intro he
    apply h
    show (l.reverse.dropWhile isPyWs).reverse = []
    rw [he]
    rfl
  obtain ⟨d, t, hdt⟩ := List.exists_cons_of_ne_nil h2
  have hd := dropWhile_head_false l.reverse d t hdt
  have h3 : (rstripWs l).getLast? = some d := by
    show ((l.reverse.dropWhile isPyWs).reverse).getLast? = some d
    rw [List.getLast?_reverse, hdt]
    rfl
  have h4 : (rstripWs l).getLast? = some ((rstripWs l).getLast h) :=
    List.getLast?_eq_getLast _ h
  rw [h4] at h3
  injection h3 with h5
  rw [h5]
  exact hd

theorem rstrip_subset (l : List Char) : ∀ c ∈ rstripWs l, c ∈ l := by
  intro c hc
  unfold rstripWs at hc
  rw [List.mem_reverse] at hc
  have := (List.dropWhile_sublist isPyWs).subset hc
  rwa [List.mem_reverse] at this

/-- C10: `_group_key` removes every parenthesised group wherever it occurs —
not only a trailing one — together with the whitespace immediately before and
after it, concatenating the surrounding text with no separating space before
normalising; consequently two names that differ only in such an internal
parenthetical receive the same group key. -/
theorem c10_group_key_removes_inner_parens (pre inner suf : List Char)
    (hpre : '(' ∉ pre) (hinner : ')' ∉ inner) :
    parenSub (pre ++ ('(' :: (inner ++ (')' :: suf))))
      = rstripWs pre ++ parenSub (lstripWs suf)
    ∧ ∀ inner2 : List Char, ')' ∉ inner2 →
        _group_key ⟨pre ++ ('(' :: (inner ++ (')' :: suf)))⟩
          = _group_key ⟨pre ++ ('(' :: (inner2 ++ (')' :: suf)))⟩ := by
  have key : ∀ inn : List Char, ')' ∉ inn →
      parenSub (pre ++ ('(' :: (inn ++ (')' :: suf))))
        = rstripWs pre ++ parenSub (lstripWs suf) := by
    intro inn hinn
    have hpre' : '(' ∉ rstripWs pre := fun hm => hpre (rstrip_subset pre _ hm)
    have hsplit : pre ++ ('(' :: (inn ++ (')' :: suf)))
        = rstripWs pre ++ (wsTail pre ++ ('(' :: (inn ++ (')' :: suf)))) := by
      rw [← List.append_assoc, rstrip_append_wsTail]
    rw [hsplit]
    exact parenSub_concat (rstripWs pre) hpre' (rstrip_getLast_not_ws pre)
      (wsTail pre) inn suf (wsTail_all_ws pre) hinn
  refine ⟨key inner hinner, ?_⟩
  intro inner2 hinner2
  unfold _group_key
  rw [show (⟨pre ++ ('(' :: (inner ++ (')' :: suf)))⟩ : String).data
      = pre ++ ('(' :: (inner ++ (')' :: suf))) from rfl]
  rw [show (⟨pre ++ ('(' :: (inner2 ++ (')' :: suf)))⟩ : String).data
      = pre ++ ('(' :: (inner2 ++ (')' :: suf))) from rfl]
  rw [key inner hinner, key inner2 hinner2]

/-- Witness for C10 at the spec example `a (x) b`. -/
theorem c10_witness :
    ('(' ∉ ("a ".data)) ∧ (')' ∉ ("x".data))
    ∧ parenSub ("a ".data ++ ('(' :: ("x".data ++ (')' :: " b".data))))
        = rstripWs "a ".data ++ parenSub (lstripWs " b".data)
    ∧ _group_key "a (x) b" = _group_key "a (y) b"
    ∧ _group_key "a (x) b" = "ab" := by
  have h := c10_group_key_removes_inner_parens "a ".data "x".data " b".data
    (by decide) (by decide)
  refine ⟨by decide, by decide, h.1, ?_, by decide⟩
  have h2 := h.2 "y".data (by decide)
  have e1 : ("a (x) b" : String)
      = ⟨"a ".data ++ ('(' :: ("x".data ++ (')' :: " b".data)))⟩ := by decide
  have e2 : ("a (y) b" : String)
      = ⟨"a ".data ++ ('(' :: ("y".data ++ (')' :: " b".data)))⟩ := by decide
  rw [e1, e2]
  exact h2

end Metro
